import Mathlib

/-!
Verification development for the baila-beat repository.

The development shallowly embeds the two core components of the repository:

* the `AudioProcessor` beat detector (src/unnamed/part_003): per-tick
  processing of weighted energy snapshots, with an adaptive-debounce main
  detection path, a predictive early-trigger path, and BPM estimation with
  outlier filtering and exponential smoothing;
* the `BeatCounter` 8-count cycle tracker (src/src/utils/beatCounter.ts,
  the variant with the optional bpm argument, which is the one the claims
  reference by line numbers).

Numbers are modelled as exact rationals (the source uses JS doubles; the
spec and claims speak in exact decimal constants, so the embedding uses the
idealized real-number semantics of those constants).  Each call to
`performance.now()` within one tick is modelled as the same tick time `now`;
the weighted-energy scalar computed from the frequency-bin data is the tick
input `energy` (the predictive path recomputes the same formula on the same
frequency data, hence obtains the same scalar).  The one use of
`Math.sqrt` (the standard-deviation threshold) is eliminated exactly by
squaring: for nonnegative `b`, `a > b` iff `0 < a` and `b ^ 2 < a ^ 2`, with
`b ^ 2 = 1.69 * variance`.
-/

namespace BailaBeat

set_option maxRecDepth 100000

/-- Beat event as delivered to the `onBeat` callback. -/
structure BeatEvent where
  beat : Bool
  downbeat : Bool
  timestamp : ℚ
  energy : ℚ
  deriving Repr, DecidableEq

/-- Internal mutable state of the `AudioProcessor` beat detector. -/
structure DetectorState where
  energyHistory : List ℚ
  beatHistory : List ℚ
  previousEnergy : ℚ
  bpmHistory : List ℚ
  currentStableBPM : ℚ
  lastBeatTime : ℚ
  beatCount : ℕ
  predictedNextBeatTime : ℚ
  lastPredictedBeatTime : ℚ
  deriving Repr, DecidableEq

/-- Fresh detector state, as after construction or `stop`. -/
def initDetector : DetectorState :=
  ⟨[], [], 0, [], 0, 0, 0, 0, 0⟩

def historySize : ℕ := 43
def minEnergyThreshold : ℚ := 3/2
def onsetThreshold : ℚ := 12/100
def bpmHistorySize : ℕ := 20
def predictionOffset : ℚ := 250

/-- Push onto a fixed-capacity FIFO buffer: append, then drop the oldest
entry when the capacity is exceeded (JS `push` followed by a guarded
`shift`). -/
def capPush (cap : ℕ) (l : List ℚ) (x : ℚ) : List ℚ :=
  let l' := l ++ [x]
  if cap < l'.length then l'.tail else l'

/-- Average of a list of rationals, as computed by the source's
`reduce((a, b) => a + b, 0) / length` idiom. -/
def avgOf (l : List ℚ) : ℚ := l.sum / (l.length : ℚ)

/-- Variance of a list of rationals about a given mean, as computed by the
source's `reduce((sum, e) => sum + (e - avg)^2, 0) / length` idiom. -/
def varianceOf (l : List ℚ) (avg : ℚ) : ℚ :=
  (l.map (fun e => (e - avg) ^ 2)).sum / (l.length : ℚ)

/-- JS `Math.max` on rationals, written with an explicit conditional so that
it evaluates by kernel reduction. -/
def mathMax (a b : ℚ) : ℚ := if a < b then b else a

/-- JS `Math.min` on rationals. -/
def mathMin (a b : ℚ) : ℚ := if b < a then b else a

/-- JS `Math.abs` on rationals. -/
def mathAbs (a : ℚ) : ℚ := if a < 0 then -a else a

/-- Consecutive differences of a list of timestamps, as built by the
`for (let i = 1; ...)` loops over `beatHistory`. -/
def intervalsOf : List ℚ → List ℚ
  | [] => []
  | [_] => []
  | a :: b :: rest => (b - a) :: intervalsOf (b :: rest)

/-- The adaptive minimum inter-beat interval computed inside `detectBeat`:
with at least 2 beats in `beatHistory` it is
`max 150 (min 300 (avgInterval * 0.6))`, otherwise the default 200 ms. -/
def adaptiveMinInterval (bh : List ℚ) : ℚ :=
  if 2 ≤ bh.length then
    mathMax 150 (mathMin 300 (avgOf (intervalsOf bh) * (3/5)))
  else 200

/-- `updateBeatPrediction`: predict the next beat from the average recent
beat-history interval, else from the stable BPM, else no prediction. -/
def updateBeatPrediction (currentBeatTime : ℚ) (s : DetectorState) : DetectorState :=
  if 2 ≤ s.beatHistory.length then
    { s with predictedNextBeatTime := currentBeatTime + avgOf (intervalsOf s.beatHistory) }
  else if 0 < s.currentStableBPM then
    { s with predictedNextBeatTime := currentBeatTime + 60000 / s.currentStableBPM }
  else
    { s with predictedNextBeatTime := 0 }

/-- The raw beat test of `detectBeat`, before debouncing: the energy must
clear the minimum floor and the dynamic threshold
`avgEnergy + 1.3 * stdDev`, and either show an onset (a relative rise of at
least 12 percent over the previous tick's energy) or clear the relative
threshold `avgEnergy * 1.08`.  The strict comparison against the dynamic
threshold is decided exactly by squaring: for nonnegative square root,
`currentEnergy - avgEnergy > 1.3 * sqrt variance` iff the difference is
positive and its square exceeds `1.69 * variance`. -/
def beatFlag (currentEnergy previousEnergy : ℚ) (energyHistory : List ℚ) : Bool :=
  let avgEnergy := avgOf energyHistory
  let energyIncrease :=
    if 0 < previousEnergy then (currentEnergy - previousEnergy) / previousEnergy else 0
  let hasOnset := decide (onsetThreshold ≤ energyIncrease)
  let variance := varianceOf energyHistory avgEnergy
  let exceedsThreshold :=
    decide (avgEnergy < currentEnergy) &&
      decide ((169/100) * variance < (currentEnergy - avgEnergy) ^ 2)
  let exceedsRelative := decide (avgEnergy * (27/25) < currentEnergy)
  let hasSignificantEnergy := decide (minEnergyThreshold < currentEnergy)
  hasSignificantEnergy && exceedsThreshold && (hasOnset || exceedsRelative)

/-- `detectBeat`: the main-path beat decision.  Returns the decision together
with the updated state (`previousEnergy` is updated on every exit path;
`beatHistory` records the detection time on a positive decision). -/
def detectBeat (currentEnergy now : ℚ) (s : DetectorState) : Bool × DetectorState :=
  if s.energyHistory.length < historySize then
    (false, { s with previousEnergy := currentEnergy })
  else
    if avgOf s.energyHistory < minEnergyThreshold then
      (false, { s with previousEnergy := currentEnergy })
    else
      let beatDetected := beatFlag currentEnergy s.previousEnergy s.energyHistory
      if beatDetected ∧ 0 < s.beatHistory.length ∧
          now - s.beatHistory.getLastD 0 < adaptiveMinInterval s.beatHistory then
        (false, { s with previousEnergy := currentEnergy })
      else
        let bh := if beatDetected then capPush 15 s.beatHistory now else s.beatHistory
        (beatDetected, { s with beatHistory := bh, previousEnergy := currentEnergy })

/-- `calculateStableBPM`: the candidate tempo from BPM history — a trimmed
mean of a 5-wide window centred on the median of the sorted samples when at
least 5 samples exist, the plain mean otherwise. -/
def calculateStableBPM (hist : List ℚ) : ℚ :=
  if hist.length = 0 then 0
  else
    let sorted := List.insertionSort (· ≤ ·) hist
    if 5 ≤ sorted.length then
      let mid := sorted.length / 2
      let start := mid - 2
      let stop := min sorted.length (mid + 3)
      let middleValues := (sorted.drop start).take (stop - start)
      middleValues.sum / (middleValues.length : ℚ)
    else
      sorted.sum / (sorted.length : ℚ)

/-- JS `Math.round`: round half toward positive infinity. -/
def jsRound (q : ℚ) : ℤ := (q + 1/2).floor

/-- The BPM block run on a main-path accepted beat: compute the
instantaneous BPM from the interval since the last accepted beat, filter it
to the 60–200 range, apply the outlier rule, and blend the recomputed
candidate into the stable BPM.  Returns the new `bpmHistory`, the new
`currentStableBPM`, and the `onBPMUpdate` notification if one is issued. -/
def bpmUpdate (timestamp : ℚ) (s : DetectorState) : List ℚ × ℚ × Option ℤ :=
  if 0 < s.lastBeatTime then
    let interval := timestamp - s.lastBeatTime
    let bpm := 60000 / interval
    if 60 ≤ bpm ∧ bpm ≤ 200 then
      let hasEnoughSamples := 5 ≤ s.bpmHistory.length
      let shouldRejectOutlier := hasEnoughSamples ∧ 0 < s.currentStableBPM
      let hist :=
        if shouldRejectOutlier ∧ s.currentStableBPM * (2/5) < mathAbs (bpm - s.currentStableBPM) then
          s.bpmHistory
        else
          capPush bpmHistorySize s.bpmHistory bpm
      if 3 ≤ hist.length then
        let stableBPM := calculateStableBPM hist
        let newStable :=
          if s.currentStableBPM = 0 then stableBPM
          else s.currentStableBPM * (4/5) + stableBPM * (1/5)
        (hist, newStable, some (jsRound newStable))
      else (hist, s.currentStableBPM, none)
    else (s.bpmHistory, s.currentStableBPM, none)
  else (s.bpmHistory, s.currentStableBPM, none)

/-- The predictive early-trigger check at the top of `processAudio`: if a
prediction is armed and the tick time is within the 250 ms look-ahead window,
the fast energy recheck passes, and no predicted trigger fired in the last
100 ms, a beat is emitted early, stamped at the predicted instant. -/
def predictivePhase (energy now : ℚ) (s : DetectorState) : DetectorState × Option BeatEvent :=
  if 0 < s.predictedNextBeatTime ∧ s.predictedNextBeatTime - predictionOffset ≤ now then
    if historySize ≤ s.energyHistory.length then
      if avgOf s.energyHistory * (21/20) < energy ∧ minEnergyThreshold < energy then
        if 100 < now - s.lastPredictedBeatTime then
          let timestamp := now + predictionOffset
          let isDownbeatFlag := decide (s.beatCount % 8 = 0)
          let s1 := { s with
            lastBeatTime := timestamp
            beatCount := s.beatCount + 1
            lastPredictedBeatTime := now }
          (updateBeatPrediction timestamp s1,
           some ⟨true, isDownbeatFlag, timestamp, energy⟩)
        else (s, none)
      else (s, none)
    else (s, none)
  else (s, none)

/-- Per-tick observable output of the detector, with instrumentation flags
used to state the claims (`decided`: the cold-start gate passed and the
main-path decision ran; `mainDetected` and `mainSuppressed`: the main path
detected a beat, and whether the predictive/main dedup guard suppressed its
emission; `minIntervalNow`: the adaptive debounce interval in force at this
tick, i.e. computed from the beat history the main path consults). -/
structure TickOut where
  predEvent : Option BeatEvent
  mainEvent : Option BeatEvent
  bpmUpdates : List ℤ
  decided : Bool
  mainDetected : Bool
  mainSuppressed : Bool
  minIntervalNow : ℚ
  deriving Repr, DecidableEq

/-- The beat events a tick delivers to `onBeat`, in emission order: the
predictive early trigger fires before the main path runs. -/
def TickOut.events (t : TickOut) : List BeatEvent :=
  t.predEvent.toList ++ t.mainEvent.toList

/-- The main-path part of `processAudio`: record the energy snapshot, run
`detectBeat` once warm, and on an unsuppressed detection run the BPM block,
advance the beat counter, refresh the prediction and emit the event. -/
def mainPhase (energy now : ℚ) (s : DetectorState) :
    DetectorState × Option BeatEvent × Option ℤ × Bool × Bool :=
  let s1 := { s with energyHistory := capPush historySize s.energyHistory energy }
  if historySize ≤ s1.energyHistory.length then
    let r := detectBeat energy now s1
    let beatDetected := r.1
    let s2 := r.2
    if beatDetected then
      let timestamp := now
      if timestamp - s2.lastPredictedBeatTime < 150 then
        (s2, none, none, true, true)
      else
        let isDownbeatFlag := decide (s2.beatCount % 8 = 0)
        let u := bpmUpdate timestamp s2
        let s3 := { s2 with
          bpmHistory := u.1
          currentStableBPM := u.2.1
          lastBeatTime := timestamp
          beatCount := s2.beatCount + 1 }
        (updateBeatPrediction timestamp s3,
         some ⟨true, isDownbeatFlag, timestamp, energy⟩, u.2.2, true, false)
    else (s2, none, none, false, false)
  else (s1, none, none, false, false)

/-- One full `processAudio` tick: the predictive early-trigger check followed
by the main path, on the energy scalar `energy` at tick time `now`. -/
def stepDet (s : DetectorState) (inp : ℚ × ℚ) : DetectorState × TickOut :=
  let energy := inp.1
  let now := inp.2
  let p := predictivePhase energy now s
  let m := mainPhase energy now p.1
  ⟨m.1,
    p.2,
    m.2.1,
    m.2.2.1.toList,
    historySize ≤ (capPush historySize p.1.energyHistory energy).length,
    m.2.2.2.1 || m.2.2.2.2,
    m.2.2.2.2,
    adaptiveMinInterval p.1.beatHistory⟩

/-- Run the detector over a list of ticks, collecting the per-tick outputs. -/
def runDet : DetectorState → List (ℚ × ℚ) → DetectorState × List TickOut
  | s, [] => (s, [])
  | s, inp :: rest =>
    let r := stepDet s inp
    let rec' := runDet r.1 rest
    (rec'.1, r.2 :: rec'.2)

/-- All beat events emitted over a run, in emission order. -/
def runEvents (inputs : List (ℚ × ℚ)) : List BeatEvent :=
  ((runDet initDetector inputs).2.map TickOut.events).flatten

/-! ## The `BeatCounter` cycle tracker -/

/-- The `BeatCounterState` record returned by `updateBeat` and `getState`. -/
structure CycleState where
  currentBeat : ℕ
  cycle : ℕ
  isDownbeat : Bool
  isDashBeat : Bool
  deriving Repr, DecidableEq

/-- Internal mutable state of the `BeatCounter` cycle tracker. -/
structure BC where
  currentBeat : ℕ
  cycle : ℕ
  lastBeatTime : ℚ
  cycleStartTime : ℚ
  currentBPM : ℚ
  expectedBeatInterval : ℚ
  deriving Repr, DecidableEq

/-- Fresh tracker state, as after construction or `reset`. -/
def initBC : BC := ⟨0, 0, 0, 0, 0, 0⟩

/-- `BeatCounter.updateBeat`: optional BPM bookkeeping, the 3-second timeout
reset, the downbeat/advance transition, and the returned display record.
The JS guard `if (bpm && bpm > 0)` is modelled as the provided value being
positive (a provided `0` is falsy and is likewise skipped).  The greater
than 10 percent tempo-deviation branch in the source only contains comments
and performs no state change, so it has no counterpart here. -/
def updateBeat (isDownbeatHint : Bool) (timestamp : ℚ) (bpm : Option ℚ) (s : BC) :
    BC × CycleState :=
  let nowq := timestamp
  let s1 :=
    match bpm with
    | some b =>
      if 0 < b then { s with currentBPM := b, expectedBeatInterval := 60000 / b } else s
    | none => s
  let s2 :=
    if 0 < s1.lastBeatTime ∧ 3000 < nowq - s1.lastBeatTime then
      { s1 with currentBeat := 0, cycle := 0, cycleStartTime := 0 }
    else s1
  let s3 :=
    if isDownbeatHint then
      { s2 with cycle := s2.cycle + 1, currentBeat := 0, cycleStartTime := nowq }
    else
      { s2 with currentBeat := (s2.currentBeat + 1) % 8 }
  let s4 := { s3 with lastBeatTime := nowq }
  let displayBeat := s4.currentBeat + 1
  let isDash := displayBeat = 4 ∨ displayBeat = 8
  (s4, ⟨displayBeat, s4.cycle, isDownbeatHint && !(decide isDash), decide isDash⟩)

/-- `BeatCounter.getState`: the on-demand query. -/
def getState (s : BC) : CycleState :=
  let displayBeat := s.currentBeat + 1
  let isDash := displayBeat = 4 ∨ displayBeat = 8
  ⟨displayBeat, s.cycle, false, decide isDash⟩

/-- `BeatCounter.reset`. -/
def resetBC (_ : BC) : BC := initBC

/-- `BeatCounter.getExpectedNextBeatTime`. -/
def getExpectedNextBeatTime (s : BC) : Option ℚ :=
  if s.currentBPM = 0 ∨ s.expectedBeatInterval = 0 then none
  else if s.cycleStartTime = 0 then some (s.lastBeatTime + s.expectedBeatInterval)
  else some (s.cycleStartTime + ((s.currentBeat : ℚ) + 1) * s.expectedBeatInterval)

/-- An operation on the cycle tracker, for reachability statements. -/
inductive BCOp where
  | update (hint : Bool) (ts : ℚ) (bpm : Option ℚ)
  | resetOp
  deriving Repr, DecidableEq

/-- Apply one tracker operation to the internal state. -/
def applyBCOp (s : BC) : BCOp → BC
  | .update hint ts bpm => (updateBeat hint ts bpm s).1
  | .resetOp => resetBC s

/-- Tracker state reached from a fresh tracker by a list of operations. -/
def runBC (ops : List BCOp) : BC := ops.foldl applyBCOp initBC

/-! ## Concrete inputs used by counterexamples and witnesses -/

/-- A silent-ish warm-up: 43 ticks of energy 10, 10 ms apart. -/
def warmTicks : List (ℚ × ℚ) :=
  (List.range 43).map (fun i => (10, 10000 + 10 * (i : ℚ)))

/-- Input trace exhibiting a predictive trigger followed by a main-path
beat: after warm-up, main beats at 10430 and 10930 arm a prediction for
11430; at 11180 the predictive trigger fires (emitting a beat stamped
11430); at 11340 — more than 150 ms after the trigger — the main path
detects and emits a beat stamped 11340. -/
def predMainTrace : List (ℚ × ℚ) :=
  warmTicks ++ [(30, 10430), (30, 10930), (13, 11180), (30, 11340)]

/-- Input trace that establishes a stabilized tempo using main-path beats
only: beats at 10430, 11430, 11880 and 12330 yield the BPM samples 60,
400/3 and 400/3, establishing a stable BPM of 980/9. -/
def stableTrace : List (ℚ × ℚ) :=
  warmTicks ++ [(30, 10430), (30, 11430), (30, 11880), (30, 12330)]

/-- A warm detector state with an armed prediction, used to witness the
predictive-trigger frame theorem. -/
def predReadyState : DetectorState :=
  ⟨List.replicate 43 10, [], 10, [], 0, 0, 0, 500, 0⟩

/-- A warm detector state with a recent predictive trigger at time 1000,
used to witness the suppression theorem. -/
def recentPredState : DetectorState :=
  ⟨List.replicate 43 10, [], 10, [], 0, 0, 0, 0, 1000⟩

/-- The BPM admission rule as the claim states it: discard the sample
outside 60..200; with at least 5 samples already present and a stabilized
tempo established, reject a sample deviating from the stabilized tempo by
more than 40 percent of it; otherwise admit to the capacity-20 FIFO. -/
def bpmAdmitSpec (bpm : ℚ) (hist : List ℚ) (stable : ℚ) : List ℚ :=
  if 60 ≤ bpm ∧ bpm ≤ 200 then
    if 5 ≤ hist.length ∧ 0 < stable ∧ stable * (2/5) < mathAbs (bpm - stable) then hist
    else capPush bpmHistorySize hist bpm
  else hist

/-- The internal position of the tracker stays below 8. -/
def BCInv (s : BC) : Prop := s.currentBeat < 8

/-- The classification facts about a reported `CycleState` record. -/
def goodCycleState (c : CycleState) : Prop :=
  (1 ≤ c.currentBeat ∧ c.currentBeat ≤ 8) ∧
    (c.isDashBeat = true ↔ (c.currentBeat = 4 ∨ c.currentBeat = 8)) ∧
    (c.isDownbeat = true → c.currentBeat = 1)

/-- A 43-tick all-low input used to witness the silence theorem. -/
def lowTicks : List (ℚ × ℚ) := List.replicate 43 (1, 0)

/-- The detector state reached after the warm-up ticks alone. -/
def warmState : DetectorState := (runDet initDetector warmTicks).1

/-- The detector state just before the predictive trigger of
`predMainTrace` (i.e. after its first 45 ticks). -/
def predTraceState45 : DetectorState := (runDet initDetector (predMainTrace.take 45)).1

/-- The detector state just before the second beat of `stableTrace`
(i.e. after its first 44 ticks). -/
def stableTraceState44 : DetectorState := (runDet initDetector (stableTrace.take 44)).1

/-- The ascending sort used by `calculateStableBPM`. -/
def sortq (l : List ℚ) : List ℚ := List.insertionSort (· ≤ ·) l

/-- The 5-wide median-centred window slice taken by `calculateStableBPM`
from the sorted samples (for at least 5 samples the `slice(start, stop)`
bounds always give 5 elements). -/
def trimWindow (l : List ℚ) : List ℚ := (l.drop (l.length / 2 - 2)).take 5

/-- Sum of the median-centred window. -/
def windowSum (l : List ℚ) : ℚ := (trimWindow l).sum

/-- The effect of one main-path BPM block on the pair of BPM History and
stabilized tempo, as a function of the instantaneous BPM sample.  This is
the `bpmUpdate` computation with the state plumbing removed; the ignored
`onBPMUpdate` notification aside, `bpmUpdate` is exactly this function of
the sample `60000 / interval`. -/
def bpmStep (bpm : ℚ) (hist : List ℚ) (stable : ℚ) : List ℚ × ℚ :=
  if 60 ≤ bpm ∧ bpm ≤ 200 then
    let hist' :=
      if (5 ≤ hist.length ∧ 0 < stable) ∧ stable * (2/5) < mathAbs (bpm - stable) then hist
      else capPush bpmHistorySize hist bpm
    if 3 ≤ hist'.length then
      (hist',
        if stable = 0 then calculateStableBPM hist'
        else stable * (4/5) + calculateStableBPM hist' * (1/5))
    else (hist', stable)
  else (hist, stable)

/-- The inductive invariant tying BPM History to the stabilized tempo.
Beyond the range facts the claims state, it records how large the candidate
tempo `calculateStableBPM hist` can be relative to the stabilized tempo in
each phase of the history's growth; the phase-dependent bounds are exactly
what survives one admission step. -/
def bpmInv (hist : List ℚ) (stable : ℚ) : Prop :=
  (∀ x ∈ hist, 60 ≤ x ∧ x ≤ 200) ∧ hist.length ≤ 20 ∧ 0 ≤ stable ∧
  (stable = 0 → hist.length ≤ 2) ∧
  (0 < stable → 60 ≤ stable ∧ stable ≤ 200 ∧ 3 ≤ hist.length ∧
    (hist.length = 3 → calculateStableBPM hist = stable) ∧
    (hist.length = 4 → 19 * calculateStableBPM hist ≤ 15 * stable + 800) ∧
    (5 ≤ hist.length → 25 * calculateStableBPM hist ≤ 43 * stable + 300))

/-! ## Cycle tracker theorems -/

theorem initBC_inv : BCInv initBC := by
  simp [BCInv, initBC]

theorem updateBeat_fst_inv (hint : Bool) (ts : ℚ) (bpm : Option ℚ) (s : BC) :
    BCInv (updateBeat hint ts bpm s).1 := by
  unfold updateBeat BCInv
  cases bpm <;> dsimp only <;> split_ifs <;> dsimp only <;> omega

theorem runBC_inv (ops : List BCOp) : BCInv (runBC ops) := by
  suffices h : ∀ s, BCInv s → BCInv (ops.foldl applyBCOp s) from h initBC initBC_inv
  induction ops with
  | nil => intro s hs; exact hs
  | cons op rest ih =>
    intro s hs
    refine ih (applyBCOp s op) ?_
    cases op with
    | update hint ts bpm => exact updateBeat_fst_inv hint ts bpm s
    | resetOp => exact initBC_inv

theorem getState_good (s : BC) (h : BCInv s) : goodCycleState (getState s) := by
  unfold BCInv at h
  unfold getState goodCycleState
  dsimp only
  refine ⟨⟨Nat.le_add_left 1 _, by omega⟩, by simp, by simp⟩

theorem updateBeat_snd_good (hint : Bool) (ts : ℚ) (bpm : Option ℚ) (s : BC) :
    goodCycleState (updateBeat hint ts bpm s).2 := by
  unfold updateBeat goodCycleState
  cases bpm <;> dsimp only <;> split_ifs <;> dsimp only <;>
    refine ⟨⟨Nat.le_add_left 1 _, by omega⟩, by simp, ?_⟩ <;>
    simp_all

/-- C6.  After every Cycle Tracker operation — an `updateBeat` call from any
reachable state, a `getState` query in any reachable state, or a `getState`
query right after `reset` — the reported display position lies in 1..8, the
reported `isDashBeat` flag holds exactly when the display position is 4 or
8, and a reported `isDownbeat` of `true` only ever accompanies display
position 1. -/
theorem cycle_state_classification (ops : List BCOp) (hint : Bool) (ts : ℚ) (bpm : Option ℚ) :
    goodCycleState (updateBeat hint ts bpm (runBC ops)).2 ∧
      goodCycleState (getState (runBC ops)) ∧
      goodCycleState (getState (resetBC (runBC ops))) :=
  ⟨updateBeat_snd_good hint ts bpm (runBC ops),
   getState_good _ (runBC_inv ops),
   getState_good _ initBC_inv⟩

/-- C10.  The on-demand `getState` query always reports `isDownbeat = false`
— in every tracker state, including immediately after a downbeat-hinted
beat was processed; only `updateBeat` can report a true downbeat flag. -/
theorem getState_never_downbeat (s : BC) (ts : ℚ) (bpm : Option ℚ) :
    (getState s).isDownbeat = false ∧
      (getState (updateBeat true ts bpm s).1).isDownbeat = false :=
  ⟨rfl, rfl⟩

/-- C8 counterexample.  A first beat processed at timestamp 0 leaves
`lastBeatTime = 0`, so a second beat 3500 ms later — more than 3000 ms after
the previously processed beat's timestamp — does not trigger the forced
reset: the cycle counter stays 1, whereas zeroing position and cycle before
the (non-downbeat) transition would report cycle 0. -/
theorem timeout_reset_claim_counterexample :
    (3000 : ℚ) < 3500 - ((updateBeat true 0 none initBC).1).lastBeatTime ∧
      (updateBeat false 3500 none (updateBeat true 0 none initBC).1).2.cycle = 1 ∧
      (updateBeat false 3500 none
        { (updateBeat true 0 none initBC).1 with
            currentBeat := 0, cycle := 0, cycleStartTime := 0 }).2.cycle = 0 := by
  refine ⟨?_, rfl, rfl⟩
  show (3000 : ℚ) < 3500 - 0
  norm_num

/-- C8 amended.  For every `updateBeat` call whose timestamp is more than
3000 ms after the previously processed beat's timestamp, provided that
previous timestamp is positive (the tracker records "a beat has been
processed" as `lastBeatTime > 0`, so a beat stamped 0 does not arm the
timeout), the tracker resets its position and cycle counter to zero before
applying the new beat's transition; with a gap of 3000 ms or less no forced
reset occurs and the transition applies to the carried-over position and
cycle. -/
theorem timeout_reset_amended (s : BC) (hint : Bool) (ts : ℚ) (bpm : Option ℚ)
    (hpos : 0 < s.lastBeatTime) :
    (3000 < ts - s.lastBeatTime →
      updateBeat hint ts bpm s =
        updateBeat hint ts bpm { s with currentBeat := 0, cycle := 0, cycleStartTime := 0 }) ∧
    (ts - s.lastBeatTime ≤ 3000 →
      (updateBeat hint ts bpm s).1.cycle = (if hint then s.cycle + 1 else s.cycle) ∧
        (updateBeat hint ts bpm s).1.currentBeat =
          (if hint then 0 else (s.currentBeat + 1) % 8)) := by
  constructor
  · intro hgap
    unfold updateBeat
    cases bpm with
    | none => cases hint <;> simp [hpos, hgap]
    | some b =>
      by_cases hb : 0 < b <;> cases hint <;> simp [hb, hpos, hgap]
  · intro hgap
    have hnot : ¬ (0 < s.lastBeatTime ∧ 3000 < ts - s.lastBeatTime) :=
      fun h => absurd h.2 (not_lt.mpr hgap)
    unfold updateBeat
    cases bpm with
    | none => cases hint <;> simp [hnot]
    | some b =>
      by_cases hb : 0 < b <;> cases hint <;> simp [hb, hnot]

/-- Witness for the amended C8 theorem at a concrete state and timestamps. -/
theorem timeout_reset_amended_witness :
    updateBeat false 3200 none ⟨5, 3, 100, 0, 0, 0⟩ =
      updateBeat false 3200 none ⟨0, 0, 100, 0, 0, 0⟩ :=
  (timeout_reset_amended ⟨5, 3, 100, 0, 0, 0⟩ false 3200 none
      (by show (0 : ℚ) < 100; norm_num)).1
    (by show (3000 : ℚ) < 3200 - 100; norm_num)

/-! ## Detector helper lemmas -/

theorem updateBeatPrediction_shape (t : ℚ) (s : DetectorState) :
    ∃ q, updateBeatPrediction t s = { s with predictedNextBeatTime := q } := by
  unfold updateBeatPrediction
  split_ifs <;> exact ⟨_, rfl⟩

@[simp] theorem ubp_energyHistory (t : ℚ) (s : DetectorState) :
    (updateBeatPrediction t s).energyHistory = s.energyHistory := by
  unfold updateBeatPrediction; split_ifs <;> rfl

@[simp] theorem ubp_beatHistory (t : ℚ) (s : DetectorState) :
    (updateBeatPrediction t s).beatHistory = s.beatHistory := by
  unfold updateBeatPrediction; split_ifs <;> rfl

@[simp] theorem ubp_previousEnergy (t : ℚ) (s : DetectorState) :
    (updateBeatPrediction t s).previousEnergy = s.previousEnergy := by
  unfold updateBeatPrediction; split_ifs <;> rfl

@[simp] theorem ubp_bpmHistory (t : ℚ) (s : DetectorState) :
    (updateBeatPrediction t s).bpmHistory = s.bpmHistory := by
  unfold updateBeatPrediction; split_ifs <;> rfl

@[simp] theorem ubp_currentStableBPM (t : ℚ) (s : DetectorState) :
    (updateBeatPrediction t s).currentStableBPM = s.currentStableBPM := by
  unfold updateBeatPrediction; split_ifs <;> rfl

@[simp] theorem ubp_lastBeatTime (t : ℚ) (s : DetectorState) :
    (updateBeatPrediction t s).lastBeatTime = s.lastBeatTime := by
  unfold updateBeatPrediction; split_ifs <;> rfl

@[simp] theorem ubp_beatCount (t : ℚ) (s : DetectorState) :
    (updateBeatPrediction t s).beatCount = s.beatCount := by
  unfold updateBeatPrediction; split_ifs <;> rfl

@[simp] theorem ubp_lastPredictedBeatTime (t : ℚ) (s : DetectorState) :
    (updateBeatPrediction t s).lastPredictedBeatTime = s.lastPredictedBeatTime := by
  unfold updateBeatPrediction; split_ifs <;> rfl

theorem detectBeat_cases (e now : ℚ) (s : DetectorState) :
    detectBeat e now s = (false, { s with previousEnergy := e }) ∨
      detectBeat e now s =
        (true, { s with beatHistory := capPush 15 s.beatHistory now, previousEnergy := e }) := by
  unfold detectBeat
  dsimp only
  rcases hb : beatFlag e s.previousEnergy s.energyHistory with _ | _ <;>
    split_ifs <;> simp_all

@[simp] theorem detectBeat_snd_energyHistory (e now : ℚ) (s : DetectorState) :
    (detectBeat e now s).2.energyHistory = s.energyHistory := by
  rcases detectBeat_cases e now s with h | h <;> rw [h]

@[simp] theorem detectBeat_snd_previousEnergy (e now : ℚ) (s : DetectorState) :
    (detectBeat e now s).2.previousEnergy = e := by
  rcases detectBeat_cases e now s with h | h <;> rw [h]

@[simp] theorem detectBeat_snd_bpmHistory (e now : ℚ) (s : DetectorState) :
    (detectBeat e now s).2.bpmHistory = s.bpmHistory := by
  rcases detectBeat_cases e now s with h | h <;> rw [h]

@[simp] theorem detectBeat_snd_currentStableBPM (e now : ℚ) (s : DetectorState) :
    (detectBeat e now s).2.currentStableBPM = s.currentStableBPM := by
  rcases detectBeat_cases e now s with h | h <;> rw [h]

@[simp] theorem detectBeat_snd_lastBeatTime (e now : ℚ) (s : DetectorState) :
    (detectBeat e now s).2.lastBeatTime = s.lastBeatTime := by
  rcases detectBeat_cases e now s with h | h <;> rw [h]

@[simp] theorem detectBeat_snd_beatCount (e now : ℚ) (s : DetectorState) :
    (detectBeat e now s).2.beatCount = s.beatCount := by
  rcases detectBeat_cases e now s with h | h <;> rw [h]

@[simp] theorem detectBeat_snd_predictedNextBeatTime (e now : ℚ) (s : DetectorState) :
    (detectBeat e now s).2.predictedNextBeatTime = s.predictedNextBeatTime := by
  rcases detectBeat_cases e now s with h | h <;> rw [h]

@[simp] theorem detectBeat_snd_lastPredictedBeatTime (e now : ℚ) (s : DetectorState) :
    (detectBeat e now s).2.lastPredictedBeatTime = s.lastPredictedBeatTime := by
  rcases detectBeat_cases e now s with h | h <;> rw [h]

/-- On a positive decision the detection time is recorded in the beat
history; on a negative one the beat history is unchanged. -/
theorem detectBeat_snd_beatHistory (e now : ℚ) (s : DetectorState) :
    (detectBeat e now s).2.beatHistory = s.beatHistory ∨
      ((detectBeat e now s).1 = true ∧
        (detectBeat e now s).2.beatHistory = capPush 15 s.beatHistory now) := by
  rcases detectBeat_cases e now s with h | h <;> rw [h]
  · exact Or.inl rfl
  · exact Or.inr ⟨rfl, rfl⟩

theorem predictivePhase_cases (e now : ℚ) (s : DetectorState) :
    predictivePhase e now s = (s, none) ∨
      predictivePhase e now s =
        (updateBeatPrediction (now + predictionOffset)
          { s with
              lastBeatTime := now + predictionOffset
              beatCount := s.beatCount + 1
              lastPredictedBeatTime := now },
         some ⟨true, decide (s.beatCount % 8 = 0), now + predictionOffset, e⟩) := by
  unfold predictivePhase
  split_ifs <;> first | exact Or.inl rfl | exact Or.inr rfl

/-- With the energy at or below the minimum floor, the raw beat test fails. -/
theorem beatFlag_false_of_low (e p : ℚ) (hist : List ℚ) (he : e ≤ minEnergyThreshold) :
    beatFlag e p hist = false := by
  unfold beatFlag
  simp [not_lt.mpr he]

theorem detectBeat_fst_false_of_low (e now : ℚ) (s : DetectorState)
    (he : e ≤ minEnergyThreshold) : (detectBeat e now s).1 = false := by
  unfold detectBeat
  dsimp only
  rw [beatFlag_false_of_low e _ _ he]
  split_ifs <;> rfl

/-- With the energy at or below the minimum floor, the predictive trigger
does not fire: its fast recheck requires the energy to exceed the floor. -/
theorem predictivePhase_none_of_low (e now : ℚ) (s : DetectorState)
    (he : e ≤ minEnergyThreshold) : predictivePhase e now s = (s, none) := by
  unfold predictivePhase
  split_ifs with h1 h2 h3 h4
  · exact absurd h3.2 (not_lt.mpr he)
  all_goals rfl

@[simp] theorem mainPhase_energyHistory (e now : ℚ) (s : DetectorState) :
    (mainPhase e now s).1.energyHistory = capPush historySize s.energyHistory e := by
  unfold mainPhase
  dsimp only
  split_ifs <;> simp

@[simp] theorem stepDet_energyHistory (s : DetectorState) (e now : ℚ) :
    (stepDet s (e, now)).1.energyHistory = capPush historySize s.energyHistory e := by
  unfold stepDet
  dsimp only
  rw [mainPhase_energyHistory]
  rcases predictivePhase_cases e now s with hp | hp <;> (rw [hp]; try simp)

/-- C3, per-tick core: a tick whose energy is at or below the minimum floor
emits no beat event, from any detector state. -/
theorem stepDet_silent (s : DetectorState) (e now : ℚ) (he : e ≤ minEnergyThreshold) :
    (stepDet s (e, now)).2.predEvent = none ∧ (stepDet s (e, now)).2.mainEvent = none := by
  unfold stepDet
  dsimp only
  rw [predictivePhase_none_of_low e now s he]
  refine ⟨rfl, ?_⟩
  unfold mainPhase
  dsimp only
  split_ifs with h1 h2 h3
  · have := detectBeat_fst_false_of_low e now
      { s with energyHistory := capPush historySize s.energyHistory e } he
    simp_all
  · have := detectBeat_fst_false_of_low e now
      { s with energyHistory := capPush historySize s.energyHistory e } he
    simp_all
  · rfl
  · rfl

theorem capPush_length (cap : ℕ) (l : List ℚ) (x : ℚ) (h : l.length ≤ cap) :
    (capPush cap l x).length = min (l.length + 1) cap := by
  unfold capPush
  dsimp only
  split_ifs with hc <;> (simp_all; try omega)

theorem stepDet_decided (s : DetectorState) (e now : ℚ) :
    (stepDet s (e, now)).2.decided =
      decide (historySize ≤ (capPush historySize s.energyHistory e).length) := by
  unfold stepDet
  dsimp only
  rcases predictivePhase_cases e now s with hp | hp <;> (rw [hp]; try simp)

theorem runDet_events_silent (l : List (ℚ × ℚ)) :
    ∀ (s : DetectorState), (∀ p ∈ l, p.1 ≤ minEnergyThreshold) →
      ∀ out ∈ (runDet s l).2, out.predEvent = none ∧ out.mainEvent = none := by
  induction l with
  | nil => intro s _ out hmem; simp [runDet] at hmem
  | cons i rest ih =>
    intro s hq out hmem
    obtain ⟨e, t⟩ := i
    simp only [runDet] at hmem
    rcases List.mem_cons.mp hmem with h | h
    · subst h
      exact stepDet_silent s e t (hq (e, t) (List.mem_cons_self _ _))
    · exact ih (stepDet s (e, t)).1 (fun p hp => hq p (List.mem_cons_of_mem _ hp)) out h

theorem runDet_decided_false (l : List (ℚ × ℚ)) :
    ∀ (s : DetectorState), s.energyHistory.length + l.length ≤ 42 →
      ∀ out ∈ (runDet s l).2, out.decided = false := by
  induction l with
  | nil => intro s _ out hmem; simp [runDet] at hmem
  | cons i rest ih =>
    intro s hlen out hmem
    obtain ⟨e, t⟩ := i
    have hsmall : s.energyHistory.length + rest.length + 1 ≤ 42 := by
      simp [List.length_cons] at hlen; omega
    have hcap : (capPush historySize s.energyHistory e).length =
        s.energyHistory.length + 1 := by
      rw [capPush_length _ _ _ (by unfold historySize; omega)]
      unfold historySize
      omega
    simp only [runDet] at hmem
    rcases List.mem_cons.mp hmem with h | h
    · subst h
      rw [stepDet_decided, hcap]
      simp only [decide_eq_false_iff_not, not_le]
      unfold historySize
      omega
    · refine ih (stepDet s (e, t)).1 ?_ out h
      rw [stepDet_energyHistory, hcap]
      omega

/-- C3.  For every input sequence of at least 43 energy snapshots that all
sit at or below the minimum energy floor of 1.5, the detector emits no beat
event on any tick — neither the main detection path nor the predictive
early trigger fires — and on every tick of a prefix shorter than 43 ticks
(i.e. before Energy History ever reaches length 43) no main-path beat
decision is attempted at all. -/
theorem silence_never_beats (inputs : List (ℚ × ℚ)) (_hlen : 43 ≤ inputs.length)
    (hq : ∀ p ∈ inputs, p.1 ≤ minEnergyThreshold) :
    (∀ out ∈ (runDet initDetector inputs).2, out.events = []) ∧
    (∀ pre suffix, inputs = pre ++ suffix → pre.length ≤ 42 →
      ∀ out ∈ (runDet initDetector pre).2, out.decided = false) := by
  constructor
  · intro out hmem
    have h := runDet_events_silent inputs initDetector hq out hmem
    unfold TickOut.events
    rw [h.1, h.2]
    rfl
  · intro pre suffix hsplit hpre out hmem
    refine runDet_decided_false pre initDetector ?_ out hmem
    simpa [initDetector] using hpre

/-- Witness for the silence theorem at a concrete 43-tick input. -/
theorem silence_never_beats_witness :
    (∀ out ∈ (runDet initDetector lowTicks).2, out.events = []) ∧
    (∀ pre suffix, lowTicks = pre ++ suffix → pre.length ≤ 42 →
      ∀ out ∈ (runDet initDetector pre).2, out.decided = false) :=
  silence_never_beats lowTicks (by simp [lowTicks])
    (fun p hp => by
      rw [List.eq_of_mem_replicate hp]
      norm_num [minEnergyThreshold])

@[simp] theorem pp_fst_energyHistory (e now : ℚ) (s : DetectorState) :
    (predictivePhase e now s).1.energyHistory = s.energyHistory := by
  rcases predictivePhase_cases e now s with hp | hp <;> (rw [hp]; try simp)

@[simp] theorem pp_fst_beatHistory (e now : ℚ) (s : DetectorState) :
    (predictivePhase e now s).1.beatHistory = s.beatHistory := by
  rcases predictivePhase_cases e now s with hp | hp <;> (rw [hp]; try simp)

@[simp] theorem pp_fst_bpmHistory (e now : ℚ) (s : DetectorState) :
    (predictivePhase e now s).1.bpmHistory = s.bpmHistory := by
  rcases predictivePhase_cases e now s with hp | hp <;> (rw [hp]; try simp)

@[simp] theorem pp_fst_previousEnergy (e now : ℚ) (s : DetectorState) :
    (predictivePhase e now s).1.previousEnergy = s.previousEnergy := by
  rcases predictivePhase_cases e now s with hp | hp <;> (rw [hp]; try simp)

@[simp] theorem pp_fst_currentStableBPM (e now : ℚ) (s : DetectorState) :
    (predictivePhase e now s).1.currentStableBPM = s.currentStableBPM := by
  rcases predictivePhase_cases e now s with hp | hp <;> (rw [hp]; try simp)

/-- C9.  A beat emitted by the predictive early trigger updates only the
last-beat time (to the predicted instant), the accepted-beat counter, the
last-predicted-trigger time and the next-beat prediction; Beat History,
BPM History, Energy History, the previous-tick energy and the stabilized
tempo are left unchanged, so the adaptive debounce interval and the
interval-based prediction are always computed from main-path detections
only. -/
theorem predictive_trigger_frame (e now : ℚ) (s : DetectorState) (ev : BeatEvent)
    (hfire : (predictivePhase e now s).2 = some ev) :
    (predictivePhase e now s).1.beatHistory = s.beatHistory ∧
    (predictivePhase e now s).1.bpmHistory = s.bpmHistory ∧
    (predictivePhase e now s).1.energyHistory = s.energyHistory ∧
    (predictivePhase e now s).1.previousEnergy = s.previousEnergy ∧
    (predictivePhase e now s).1.currentStableBPM = s.currentStableBPM ∧
    (predictivePhase e now s).1.lastBeatTime = now + predictionOffset ∧
    (predictivePhase e now s).1.beatCount = s.beatCount + 1 ∧
    (predictivePhase e now s).1.lastPredictedBeatTime = now := by
  rcases predictivePhase_cases e now s with hp | hp
  · rw [hp] at hfire
    simp at hfire
  · rw [hp]
    simp

/-- Witness for the predictive-trigger frame theorem: from `predReadyState`
the trigger fires at time 400 with energy 20, stamping the beat at 650. -/
theorem predictive_trigger_frame_witness :
    (predictivePhase 20 400 predReadyState).1.beatHistory = predReadyState.beatHistory ∧
    (predictivePhase 20 400 predReadyState).1.bpmHistory = predReadyState.bpmHistory ∧
    (predictivePhase 20 400 predReadyState).1.energyHistory = predReadyState.energyHistory ∧
    (predictivePhase 20 400 predReadyState).1.previousEnergy = predReadyState.previousEnergy ∧
    (predictivePhase 20 400 predReadyState).1.currentStableBPM =
      predReadyState.currentStableBPM ∧
    (predictivePhase 20 400 predReadyState).1.lastBeatTime = 400 + predictionOffset ∧
    (predictivePhase 20 400 predReadyState).1.beatCount = predReadyState.beatCount + 1 ∧
    (predictivePhase 20 400 predReadyState).1.lastPredictedBeatTime = 400 :=
  predictive_trigger_frame 20 400 predReadyState ⟨true, true, 650, 20⟩
    (by with_unfolding_all rfl)

/-- Case analysis of the main-path phase: either no beat event is emitted
and the beat counter is unchanged, or the tick's beat event is emitted with
the downbeat flag computed from the pre-tick counter, the counter
increments by one, and the predictive dedup guard did not apply. -/
theorem mainPhase_cases (e now : ℚ) (s : DetectorState) :
    ((mainPhase e now s).2.1 = none ∧ (mainPhase e now s).1.beatCount = s.beatCount) ∨
    ((mainPhase e now s).2.1 = some ⟨true, decide (s.beatCount % 8 = 0), now, e⟩ ∧
      (mainPhase e now s).1.beatCount = s.beatCount + 1 ∧
      ¬ now - s.lastPredictedBeatTime < 150) := by
  unfold mainPhase
  dsimp only
  split_ifs with h1 h2 h3
  · exact Or.inl ⟨rfl, by simp⟩
  · refine Or.inr ⟨by simp, by simp, ?_⟩
    intro hlt
    exact h3 (by simpa using hlt)
  · exact Or.inl ⟨rfl, by simp⟩
  · exact Or.inl ⟨rfl, rfl⟩

/-- C4.  On every detector tick, either no beat event is emitted and the
accepted-beat counter is unchanged, or exactly one beat event is emitted —
predictive or main-path — whose downbeat flag is true exactly when the
0-indexed accepted-beat counter at the moment of emission is a multiple of
8, and the counter increments by exactly one. -/
theorem downbeat_flag_and_counter (s : DetectorState) (e now : ℚ) :
    ((stepDet s (e, now)).2.events = [] ∧ (stepDet s (e, now)).1.beatCount = s.beatCount) ∨
    (∃ ev, (stepDet s (e, now)).2.events = [ev] ∧
      ev.downbeat = decide (s.beatCount % 8 = 0) ∧
      (stepDet s (e, now)).1.beatCount = s.beatCount + 1) := by
  unfold stepDet
  dsimp only
  rcases predictivePhase_cases e now s with hp | hp <;> rw [hp] <;> dsimp only
  · rcases mainPhase_cases e now s with ⟨h1, h2⟩ | ⟨h1, h2, _⟩
    · exact Or.inl ⟨by simp [TickOut.events, h1], h2⟩
    · exact Or.inr ⟨⟨true, decide (s.beatCount % 8 = 0), now, e⟩,
        by simp [TickOut.events, h1], rfl, h2⟩
  · set p1 := updateBeatPrediction (now + predictionOffset)
      { s with
          lastBeatTime := now + predictionOffset
          beatCount := s.beatCount + 1
          lastPredictedBeatTime := now } with hp1
    rcases mainPhase_cases e now p1 with ⟨h1, h2⟩ | ⟨h1, h2, h3⟩
    · refine Or.inr ⟨⟨true, decide (s.beatCount % 8 = 0), now + predictionOffset, e⟩,
        by simp [TickOut.events, h1], rfl, ?_⟩
      rw [h2, hp1]
      simp
    · exfalso
      apply h3
      rw [hp1]
      simp

/-- C7.  When the main path detects a beat at a tick whose time is within
150 ms of the last predictive trigger (possibly set earlier in the same
tick), no main-path beat event is emitted — the tick delivers at most the
predictive event — while the tick's history updates from the energy sample
still occur: the snapshot is recorded in Energy History, the previous-tick
energy is updated, and the detection time is still pushed onto Beat
History. -/
theorem main_path_suppression (s : DetectorState) (e now : ℚ)
    (hdet : (stepDet s (e, now)).2.mainDetected = true)
    (hnear : now - (predictivePhase e now s).1.lastPredictedBeatTime < 150) :
    (stepDet s (e, now)).2.mainEvent = none ∧
    (stepDet s (e, now)).2.mainSuppressed = true ∧
    (stepDet s (e, now)).2.events = (stepDet s (e, now)).2.predEvent.toList ∧
    (stepDet s (e, now)).1.energyHistory = capPush historySize s.energyHistory e ∧
    (stepDet s (e, now)).1.previousEnergy = e ∧
    (stepDet s (e, now)).1.beatHistory = capPush 15 s.beatHistory now := by
  have henergy := stepDet_energyHistory s e now
  unfold stepDet at hdet ⊢
  dsimp only at hdet ⊢
  unfold mainPhase at hdet ⊢
  dsimp only at hdet ⊢
  split_ifs at hdet ⊢ with h1 h2 h3
  · rcases detectBeat_cases e now
        { (predictivePhase e now s).1 with
            energyHistory := capPush historySize (predictivePhase e now s).1.energyHistory e }
      with hd | hd
    · rw [hd] at h2
      simp at h2
    · refine ⟨rfl, rfl, by simp [TickOut.events], ?_, ?_, ?_⟩
      · simp
      · simp
      · rw [hd]
        simp
  · exfalso
    apply h3
    simp
    simpa using hnear
  · simp at hdet
  · simp at hdet

theorem getLastD_capPush (cap : ℕ) (l : List ℚ) (x : ℚ) (hcap : 1 ≤ cap) :
    (capPush cap l x).getLastD 0 = x := by
  unfold capPush
  dsimp only
  split_ifs with h
  · cases l with
    | nil => simp at h; omega
    | cons a t => simp [List.getLastD_concat]
  · simp [List.getLastD_concat]

theorem capPush_ne_nil (cap : ℕ) (l : List ℚ) (x : ℚ) (hcap : 1 ≤ cap) :
    capPush cap l x ≠ [] := by
  have hpos : 0 < (capPush cap l x).length := by
    unfold capPush
    dsimp only
    split_ifs with h
    · simp at h ⊢
      omega
    · simp
  exact List.ne_nil_of_length_pos hpos

/-- A positively decided `detectBeat` passed the adaptive debounce. -/
theorem detectBeat_true_debounce (e now : ℚ) (s : DetectorState)
    (h : (detectBeat e now s).1 = true) :
    0 < s.beatHistory.length →
      ¬ now - s.beatHistory.getLastD 0 < adaptiveMinInterval s.beatHistory := by
  intro hlen hlt
  unfold detectBeat at h
  dsimp only at h
  split_ifs at h with h1 h2 h3 h4
  all_goals dsimp only at h
  · exact h3 ⟨h, hlen, hlt⟩
  · exact h3 ⟨h, hlen, hlt⟩

theorem stepDet_minIntervalNow (s : DetectorState) (e now : ℚ) :
    (stepDet s (e, now)).2.minIntervalNow = adaptiveMinInterval s.beatHistory := by
  unfold stepDet
  dsimp only
  rw [pp_fst_beatHistory]

theorem stepDet_beatHistory_cases (s : DetectorState) (e now : ℚ) :
    (stepDet s (e, now)).1.beatHistory = s.beatHistory ∨
      (stepDet s (e, now)).1.beatHistory = capPush 15 s.beatHistory now := by
  unfold stepDet
  dsimp only
  unfold mainPhase
  dsimp only
  split_ifs with h1 h2 h3
  · rcases detectBeat_cases e now
        { (predictivePhase e now s).1 with
            energyHistory := capPush historySize (predictivePhase e now s).1.energyHistory e }
      with hd | hd <;> rw [hd] <;> simp
  · rcases detectBeat_cases e now
        { (predictivePhase e now s).1 with
            energyHistory := capPush historySize (predictivePhase e now s).1.energyHistory e }
      with hd | hd <;> rw [hd] <;> simp
  · rcases detectBeat_cases e now
        { (predictivePhase e now s).1 with
            energyHistory := capPush historySize (predictivePhase e now s).1.energyHistory e }
      with hd | hd <;> rw [hd] <;> simp
  · simp

/-- A tick that emits a main-path beat event stamps it with the tick time,
records the detection in Beat History, and passed the adaptive debounce
against the pre-tick Beat History. -/
theorem mainEvent_emit (s : DetectorState) (e now : ℚ) (ev : BeatEvent)
    (hev : (stepDet s (e, now)).2.mainEvent = some ev) :
    ev.timestamp = now ∧
    (stepDet s (e, now)).1.beatHistory = capPush 15 s.beatHistory now ∧
    (0 < s.beatHistory.length →
      ¬ now - s.beatHistory.getLastD 0 < adaptiveMinInterval s.beatHistory) := by
  unfold stepDet at hev ⊢
  dsimp only at hev ⊢
  rcases predictivePhase_cases e now s with hp | hp
  · rw [hp] at hev ⊢
    dsimp only at hev ⊢
    unfold mainPhase at hev ⊢
    dsimp only at hev ⊢
    split_ifs at hev ⊢ with h1 h2 h3
    · injection hev with hinj
      subst hinj
      refine ⟨rfl, ?_, ?_⟩
      · rcases detectBeat_cases e now
            { s with energyHistory := capPush historySize s.energyHistory e } with hd | hd
        · rw [hd] at h2
          simp at h2
        · rw [hd]
          simp
      · intro hlen hlt
        exact detectBeat_true_debounce e now
          { s with energyHistory := capPush historySize s.energyHistory e } h2 hlen hlt
  · rw [hp] at hev ⊢
    dsimp only at hev ⊢
    exfalso
    rcases mainPhase_cases e now (updateBeatPrediction (now + predictionOffset)
        { s with
            lastBeatTime := now + predictionOffset
            beatCount := s.beatCount + 1
            lastPredictedBeatTime := now }) with ⟨h1, _⟩ | ⟨_, _, h3⟩
    · rw [h1] at hev; simp at hev
    · apply h3
      simp

theorem runDet_getLast_mono (mid : List (ℚ × ℚ)) :
    ∀ (s : DetectorState) (t0 : ℚ), s.beatHistory ≠ [] →
      t0 ≤ s.beatHistory.getLastD 0 → (∀ p ∈ mid, t0 ≤ p.2) →
      (runDet s mid).1.beatHistory ≠ [] ∧
        t0 ≤ (runDet s mid).1.beatHistory.getLastD 0 := by
  induction mid with
  | nil => intro s t0 h1 h2 _; exact ⟨h1, h2⟩
  | cons i rest ih =>
    intro s t0 h1 h2 hmono
    obtain ⟨e, t⟩ := i
    simp only [runDet]
    refine ih (stepDet s (e, t)).1 t0 ?_ ?_ (fun p hp => hmono p (List.mem_cons_of_mem _ hp))
    · rcases stepDet_beatHistory_cases s e t with hb | hb <;> rw [hb]
      · exact h1
      · exact capPush_ne_nil 15 _ _ (by omega)
    · rcases stepDet_beatHistory_cases s e t with hb | hb <;> rw [hb]
      · exact h2
      · rw [getLastD_capPush 15 _ _ (by omega)]
        exact hmono (e, t) (List.mem_cons_self _ _)

/-- C1 counterexample.  Over `predMainTrace` the detector emits four
accepted beats, stamped 10430, 10930, 11430 (predictive) and 11340
(main path): the gap between the two consecutive accepted beats stamped
11430 and 11340 is negative — while the debounce interval in force at the
second of them (Beat History then being [10430, 10930], two beats) is
clamp(150, 300, 0.6 × 500) = 300 ms (and the claimed interval is at least
150 ms in every case).  The claimed debounce property therefore fails for
beats involving the predictive early trigger. -/
theorem debounce_claim_counterexample :
    (runEvents predMainTrace).map BeatEvent.timestamp = [10430, 10930, 11430, 11340] ∧
    (runDet initDetector (predMainTrace.take 46)).1.beatHistory = [10430, 10930] ∧
    adaptiveMinInterval [10430, 10930] = 300 ∧
    (11340 : ℚ) - 11430 < 150 :=
  ⟨by with_unfolding_all rfl,
   by with_unfolding_all rfl,
   by with_unfolding_all rfl,
   by norm_num⟩

/-- C1 amended.  The debounce property holds for the main detection path:
for any two main-path accepted beats — in particular consecutive ones —
with the tick times in between no earlier than the first beat's tick, the
gap between their timestamps is at least the adaptive debounce interval in
force at the time of the second (`clamp(150ms, 300ms, 0.6 × average recent
Beat-History interval)` with at least 2 beats in Beat History, otherwise
200 ms).  Beats emitted by the predictive early trigger are not subject to
this debounce. -/
theorem main_path_debounce (s₀ : DetectorState) (mid : List (ℚ × ℚ)) (pi pj : ℚ × ℚ)
    (evi evj : BeatEvent)
    (hmono : ∀ p ∈ mid, pi.2 ≤ p.2)
    (hi : (stepDet s₀ pi).2.mainEvent = some evi)
    (hj : (stepDet (runDet (stepDet s₀ pi).1 mid).1 pj).2.mainEvent = some evj) :
    (stepDet (runDet (stepDet s₀ pi).1 mid).1 pj).2.minIntervalNow ≤
      evj.timestamp - evi.timestamp ∧
    (stepDet (runDet (stepDet s₀ pi).1 mid).1 pj).2.minIntervalNow =
      adaptiveMinInterval (runDet (stepDet s₀ pi).1 mid).1.beatHistory := by
  obtain ⟨e0, t0⟩ := pi
  obtain ⟨e1, t1⟩ := pj
  obtain ⟨hts0, hbh0, _⟩ := mainEvent_emit s₀ e0 t0 evi hi
  have hbase : (stepDet s₀ (e0, t0)).1.beatHistory ≠ [] ∧
      t0 ≤ (stepDet s₀ (e0, t0)).1.beatHistory.getLastD 0 := by
    rw [hbh0, getLastD_capPush 15 _ _ (by omega)]
    exact ⟨capPush_ne_nil 15 _ _ (by omega), le_refl t0⟩
  obtain ⟨hne, hlast⟩ := runDet_getLast_mono mid (stepDet s₀ (e0, t0)).1 t0
    hbase.1 hbase.2 hmono
  obtain ⟨hts1, _, hdeb⟩ :=
    mainEvent_emit (runDet (stepDet s₀ (e0, t0)).1 mid).1 e1 t1 evj hj
  have hlen : 0 < (runDet (stepDet s₀ (e0, t0)).1 mid).1.beatHistory.length :=
    List.length_pos.mpr hne
  have hge := not_lt.mp (hdeb hlen)
  refine ⟨?_, stepDet_minIntervalNow _ e1 t1⟩
  rw [stepDet_minIntervalNow _ e1 t1, hts0, hts1]
  have hgap : t0 ≤ (runDet (stepDet s₀ (e0, t0)).1 mid).1.beatHistory.getLastD 0 := hlast
  linarith

/-- Witness for the amended debounce theorem: the two consecutive main-path
beats of `predMainTrace` at 10430 and 10930, with no ticks in between. -/
theorem main_path_debounce_witness :
    (stepDet (runDet (stepDet warmState (30, 10430)).1 []).1 (30, 10930)).2.minIntervalNow ≤
      (⟨true, false, 10930, 30⟩ : BeatEvent).timestamp -
        (⟨true, true, 10430, 30⟩ : BeatEvent).timestamp ∧
    (stepDet (runDet (stepDet warmState (30, 10430)).1 []).1 (30, 10930)).2.minIntervalNow =
      adaptiveMinInterval (runDet (stepDet warmState (30, 10430)).1 []).1.beatHistory :=
  main_path_debounce warmState [] (30, 10430) (30, 10930)
    ⟨true, true, 10430, 30⟩ ⟨true, false, 10930, 30⟩
    (by intro p hp; simp at hp)
    (by with_unfolding_all rfl)
    (by with_unfolding_all rfl)

/-- C2 counterexample.  At tick 45 of `predMainTrace` the predictive early
trigger emits an accepted beat stamped 11430, after earlier accepted beats
(the last-beat time is 10930).  The claim's instantaneous BPM for it is
60000 / (11430 - 10930) = 120, inside [60, 200], and with BPM History
[120] (one sample, no outlier rejection) the claim mandates admission,
giving [120, 120] — but the detector leaves BPM History unchanged: the
predictive path never computes or admits a BPM sample. -/
theorem bpm_claim_counterexample :
    predTraceState45.lastBeatTime = 10930 ∧
    predTraceState45.bpmHistory = [120] ∧
    (stepDet predTraceState45 (13, 11180)).2.events = [⟨true, false, 11430, 13⟩] ∧
    (60000 : ℚ) / (11430 - 10930) = 120 ∧
    bpmAdmitSpec 120 [120] predTraceState45.currentStableBPM = [120, 120] ∧
    (stepDet predTraceState45 (13, 11180)).1.bpmHistory = [120] :=
  ⟨by with_unfolding_all rfl,
   by with_unfolding_all rfl,
   by with_unfolding_all rfl,
   by norm_num,
   by with_unfolding_all rfl,
   by with_unfolding_all rfl⟩

/-- The BPM block of a main-path accepted beat computes the new BPM history
exactly as the claim's admission rule prescribes. -/
theorem bpmUpdate_fst (t : ℚ) (s : DetectorState) (h : 0 < s.lastBeatTime) :
    (bpmUpdate t s).1 =
      bpmAdmitSpec (60000 / (t - s.lastBeatTime)) s.bpmHistory s.currentStableBPM := by
  unfold bpmUpdate bpmAdmitSpec
  rw [if_pos h]
  dsimp only
  split_ifs <;> first | rfl | tauto

/-- C2 amended.  On every main-path accepted beat after the first (that is,
with a previous accepted beat recorded), the detector computes the
instantaneous BPM 60000 divided by the interval since the previous accepted
beat, discards it when outside [60, 200], and otherwise admits it to the
capacity-20 FIFO BPM History, except that with at least 5 samples already
present and a stabilized tempo established, a sample deviating from the
stabilized tempo by more than 40 percent of it is rejected as an outlier.
Beats emitted by the predictive early trigger never touch BPM History. -/
theorem bpm_admission_main (s : DetectorState) (e now : ℚ) (ev : BeatEvent)
    (hev : (stepDet s (e, now)).2.mainEvent = some ev)
    (hlast : 0 < s.lastBeatTime) :
    (stepDet s (e, now)).1.bpmHistory =
      bpmAdmitSpec (60000 / (now - s.lastBeatTime)) s.bpmHistory s.currentStableBPM := by
  unfold stepDet at hev ⊢
  dsimp only at hev ⊢
  rcases predictivePhase_cases e now s with hp | hp
  · rw [hp] at hev ⊢
    dsimp only at hev ⊢
    unfold mainPhase at hev ⊢
    dsimp only at hev ⊢
    split_ifs at hev ⊢ with h1 h2 h3
    · have hlast2 : 0 < (detectBeat e now
          { s with energyHistory := capPush historySize s.energyHistory e }).2.lastBeatTime := by
        simpa using hlast
      rw [ubp_bpmHistory]
      dsimp only
      rw [bpmUpdate_fst now _ hlast2]
      simp
  · rw [hp] at hev ⊢
    dsimp only at hev ⊢
    exfalso
    rcases mainPhase_cases e now (updateBeatPrediction (now + predictionOffset)
        { s with
            lastBeatTime := now + predictionOffset
            beatCount := s.beatCount + 1
            lastPredictedBeatTime := now }) with ⟨h1, _⟩ | ⟨_, _, h3⟩
    · rw [h1] at hev
      simp at hev
    · apply h3
      simp

/-- Witness for the amended BPM-admission theorem: the second beat of
`stableTrace` yields the in-range sample 60000 / 1000 = 60, admitted to the
empty BPM History. -/
theorem bpm_admission_main_witness :
    (stepDet stableTraceState44 (30, 11430)).1.bpmHistory =
      bpmAdmitSpec (60000 / (11430 - stableTraceState44.lastBeatTime))
        stableTraceState44.bpmHistory stableTraceState44.currentStableBPM :=
  bpm_admission_main stableTraceState44 30 11430 ⟨true, false, 11430, 30⟩
    (by with_unfolding_all rfl)
    (by rw [(by with_unfolding_all rfl : stableTraceState44.lastBeatTime = (10430 : ℚ))]
        norm_num)

/-- Witness for the suppression theorem: from `recentPredState` (last
predictive trigger at 1000) the main path detects at 1090 — within the
150 ms guard — and is suppressed while the histories are still updated. -/
theorem main_path_suppression_witness :
    (stepDet recentPredState (30, 1090)).2.mainEvent = none ∧
    (stepDet recentPredState (30, 1090)).2.mainSuppressed = true ∧
    (stepDet recentPredState (30, 1090)).2.events =
      (stepDet recentPredState (30, 1090)).2.predEvent.toList ∧
    (stepDet recentPredState (30, 1090)).1.energyHistory =
      capPush historySize recentPredState.energyHistory 30 ∧
    (stepDet recentPredState (30, 1090)).1.previousEnergy = 30 ∧
    (stepDet recentPredState (30, 1090)).1.beatHistory =
      capPush 15 recentPredState.beatHistory 1090 :=
  main_path_suppression recentPredState 30 1090
    (by with_unfolding_all rfl)
    (by rw [(by with_unfolding_all rfl :
          (predictivePhase 30 1090 recentPredState).1.lastPredictedBeatTime = (1000 : ℚ))]
        norm_num)

/-! ## Sorting and window lemmas for the stabilized-tempo invariant -/

theorem sortq_sorted (l : List ℚ) : List.Sorted (· ≤ ·) (sortq l) :=
  List.sorted_insertionSort _ l

theorem sortq_perm (l : List ℚ) : (sortq l).Perm l :=
  List.perm_insertionSort _ l

theorem sortq_length (l : List ℚ) : (sortq l).length = l.length :=
  (sortq_perm l).length_eq

theorem sortq_sum (l : List ℚ) : (sortq l).sum = l.sum :=
  (sortq_perm l).sum_eq

theorem sortq_mem {x : ℚ} {l : List ℚ} (h : x ∈ sortq l) : x ∈ l :=
  (sortq_perm l).mem_iff.mp h

/-- Sorting the one-step-grown history is an ordered insertion into the
sorted history. -/
theorem sortq_append_single (l : List ℚ) (x : ℚ) :
    sortq (l ++ [x]) = List.orderedInsert (· ≤ ·) x (sortq l) := by
  refine List.eq_of_perm_of_sorted ?_ (sortq_sorted _)
    (List.Sorted.orderedInsert x (sortq l) (sortq_sorted l))
  have h1 : (sortq (l ++ [x])).Perm (l ++ [x]) := sortq_perm _
  have h2 : (l ++ [x]).Perm (x :: l) := List.perm_append_comm
  have h3 : (x :: l).Perm (x :: sortq l) := (sortq_perm l).symm.cons x
  have h4 : (List.orderedInsert (· ≤ ·) x (sortq l)).Perm (x :: sortq l) :=
    List.perm_orderedInsert _ x _
  exact h1.trans (h2.trans (h3.trans h4.symm))

/-- Sorting the tail of a history is an erasure from the sorted history. -/
theorem sortq_cons_erase (a : ℚ) (t : List ℚ) :
    sortq t = (sortq (a :: t)).erase a := by
  refine List.eq_of_perm_of_sorted ?_ (sortq_sorted t)
    (List.Pairwise.sublist (List.erase_sublist a (sortq (a :: t))) (sortq_sorted (a :: t)))
  have h3 := List.Perm.erase a (sortq_perm (a :: t)).symm
  rw [List.erase_cons_head] at h3
  exact (sortq_perm t).trans h3

theorem list_sum_le (l : List ℚ) (hi : ℚ) (h : ∀ x ∈ l, x ≤ hi) :
    l.sum ≤ (l.length : ℚ) * hi := by
  induction l with
  | nil => simp
  | cons a t ih =>
    have ha := h a (List.mem_cons_self _ _)
    have ht := ih (fun x hx => h x (List.mem_cons_of_mem _ hx))
    simp only [List.sum_cons, List.length_cons]
    push_cast
    linarith

theorem le_list_sum (l : List ℚ) (lo : ℚ) (h : ∀ x ∈ l, lo ≤ x) :
    (l.length : ℚ) * lo ≤ l.sum := by
  induction l with
  | nil => simp
  | cons a t ih =>
    have ha := h a (List.mem_cons_self _ _)
    have ht := ih (fun x hx => h x (List.mem_cons_of_mem _ hx))
    simp only [List.sum_cons, List.length_cons]
    push_cast
    linarith

theorem trimWindow_length (l : List ℚ) (h : 5 ≤ l.length) :
    (trimWindow l).length = 5 := by
  unfold trimWindow
  simp only [List.length_take, List.length_drop]
  omega

theorem trimWindow_sublist (l : List ℚ) : (trimWindow l).Sublist l :=
  ((l.drop (l.length / 2 - 2)).take_sublist 5).trans (l.drop_sublist _)

/-- For fewer than five samples the candidate tempo is the plain mean. -/
theorem calc_eq_mean (hist : List ℚ) (h1 : 1 ≤ hist.length) (h4 : hist.length ≤ 4) :
    calculateStableBPM hist = hist.sum / (hist.length : ℚ) := by
  unfold calculateStableBPM
  rw [if_neg (by omega)]
  dsimp only
  rw [if_neg (by rw [(by rfl : List.insertionSort (· ≤ ·) hist = sortq hist), sortq_length]; omega)]
  rw [(by rfl : List.insertionSort (· ≤ ·) hist = sortq hist), sortq_sum, sortq_length]

/-- For at least five samples the candidate tempo is the mean of the 5-wide
median-centred window of the sorted samples. -/
theorem calc_eq_windowSum (hist : List ℚ) (h : 5 ≤ hist.length) :
    calculateStableBPM hist = windowSum (sortq hist) / 5 := by
  unfold calculateStableBPM
  rw [if_neg (by omega)]
  dsimp only
  rw [if_pos (by rw [(by rfl : List.insertionSort (· ≤ ·) hist = sortq hist), sortq_length]; omega)]
  rw [(by rfl : List.insertionSort (· ≤ ·) hist = sortq hist)]
  unfold windowSum trimWindow
  have hlen : (sortq hist).length = hist.length := sortq_length hist
  have hstop : min (sortq hist).length ((sortq hist).length / 2 + 3) -
      ((sortq hist).length / 2 - 2) = 5 := by omega
  rw [hstop]
  have hwl : (((sortq hist).drop ((sortq hist).length / 2 - 2)).take 5).length = 5 := by
    simp only [List.length_take, List.length_drop]
    omega
  rw [hwl]
  norm_num

/-- The candidate tempo lies within the range of the samples' bounds. -/
theorem calc_range (hist : List ℚ) (hne : 1 ≤ hist.length)
    (hb : ∀ x ∈ hist, 60 ≤ x ∧ x ≤ 200) :
    60 ≤ calculateStableBPM hist ∧ calculateStableBPM hist ≤ 200 := by
  rcases le_or_lt hist.length 4 with h4 | h5
  · rw [calc_eq_mean hist hne h4]
    have hlo := le_list_sum hist 60 (fun x hx => (hb x hx).1)
    have hhi := list_sum_le hist 200 (fun x hx => (hb x hx).2)
    have hlpos : 0 < (hist.length : ℚ) := by
      exact_mod_cast hne
    constructor
    · rw [le_div_iff₀ hlpos]
      linarith
    · rw [div_le_iff₀ hlpos]
      linarith
  · have h5' : 5 ≤ hist.length := h5
    rw [calc_eq_windowSum hist h5']
    have hmem : ∀ x ∈ trimWindow (sortq hist), 60 ≤ x ∧ x ≤ 200 := by
      intro x hx
      exact hb x (sortq_mem ((trimWindow_sublist (sortq hist)).mem hx))
    have hwl : (trimWindow (sortq hist)).length = 5 := by
      refine trimWindow_length _ ?_
      rw [sortq_length]
      omega
    have hlo := le_list_sum (trimWindow (sortq hist)) 60 (fun x hx => (hmem x hx).1)
    have hhi := list_sum_le (trimWindow (sortq hist)) 200 (fun x hx => (hmem x hx).2)
    rw [hwl] at hlo hhi
    unfold windowSum
    constructor
    · rw [le_div_iff₀ (by norm_num : (0:ℚ) < 5)]
      push_cast at hlo
      linarith
    · rw [div_le_iff₀ (by norm_num : (0:ℚ) < 5)]
      push_cast at hhi
      linarith

/-- The trimmed 5-window's sum as a difference of two prefix sums. -/
theorem windowSum_eq_sub (l : List ℚ) (h : 5 ≤ l.length) :
    windowSum l = (l.take (l.length / 2 + 3)).sum - (l.take (l.length / 2 - 2)).sum := by
  unfold windowSum trimWindow
  rw [(by omega : l.length / 2 + 3 = (l.length / 2 - 2) + 5), List.take_add,
    List.sum_append]
  ring

/-- Prefix sums across an insertion point, before the inserted element. -/
theorem sum_take_out (A B : List ℚ) (x : ℚ) (k : ℕ) (hk : k ≤ A.length) :
    ((A ++ x :: B).take k).sum = ((A ++ B).take k).sum := by
  rw [List.take_append_of_le_length hk, List.take_append_of_le_length hk]

/-- Prefix sums across an insertion point, past the inserted element. -/
theorem sum_take_mid (A B : List ℚ) (x : ℚ) (k : ℕ) (hk : A.length < k) :
    ((A ++ x :: B).take k).sum = ((A ++ B).take (k - 1)).sum + x := by
  obtain ⟨i, rfl⟩ : ∃ i, k = A.length + 1 + i := ⟨k - (A.length + 1), by omega⟩
  rw [(by omega : A.length + 1 + i - 1 = A.length + i),
    (by omega : A.length + 1 + i = A.length + (1 + i)), List.take_append,
    List.take_append, (by omega : 1 + i = i + 1), List.take_succ_cons]
  simp only [List.sum_append, List.sum_cons]
  ring

/-- An ordered insertion splits the sorted list at the insertion point. -/
theorem orderedInsert_decomp (l : List ℚ) (x : ℚ) :
    ∃ A B, l = A ++ B ∧ List.orderedInsert (· ≤ ·) x l = A ++ x :: B := by
  refine ⟨l.takeWhile fun b => ¬ x ≤ b, l.dropWhile fun b => ¬ x ≤ b, ?_, ?_⟩
  · exact (List.takeWhile_append_dropWhile _ l).symm
  · exact List.orderedInsert_eq_take_drop _ x l

/-- Inserting a sample into an odd-length sorted history moves the trimmed
5-window's sum up by at most the excess of the sample over the floor. -/
theorem windowSum_orderedInsert_odd (l : List ℚ) (x lo : ℚ)
    (hs : List.Sorted (· ≤ ·) l) (hlen : 5 ≤ l.length) (hodd : l.length % 2 = 1)
    (hlo : ∀ y ∈ l, lo ≤ y) (hx : lo ≤ x) :
    windowSum (List.orderedInsert (· ≤ ·) x l) ≤ windowSum l + (x - lo) := by
  have hsu : List.Sorted (· ≤ ·) (List.orderedInsert (· ≤ ·) x l) :=
    List.Sorted.orderedInsert x l hs
  obtain ⟨A, B, hlAB, hu⟩ := orderedInsert_decomp l x
  rw [hu] at hsu
  subst hlAB
  rw [hu]
  obtain ⟨m, hm⟩ : ∃ m, (A ++ B).length = 2*m+5 := ⟨((A ++ B).length - 5)/2, by omega⟩
  have hABl : (A ++ B).length = A.length + B.length := List.length_append A B
  have hxl : (A ++ x :: B).length = A.length + B.length + 1 := by
    simp only [List.length_append, List.length_cons]
    omega
  rw [windowSum_eq_sub _ (by omega), windowSum_eq_sub _ (by omega), hxl,
    (by omega : A.length + B.length = 2*m+5), hm,
    (by omega : (2*m+5+1)/2+3 = m+6), (by omega : (2*m+5+1)/2-2 = m+1),
    (by omega : (2*m+5)/2+3 = m+5), (by omega : (2*m+5)/2-2 = m)]
  rcases le_or_lt A.length m with hp | hp1
  · have e1 : ((A ++ x :: B).take (m+6)).sum = ((A ++ B).take (m+5)).sum + x := by
      have h := sum_take_mid A B x (m+6) (by omega)
      rwa [(by omega : m+6-1 = m+5)] at h
    have e2 : ((A ++ x :: B).take (m+1)).sum = ((A ++ B).take m).sum + x := by
      have h := sum_take_mid A B x (m+1) (by omega)
      rwa [(by omega : m+1-1 = m)] at h
    rw [e1, e2]
    linarith
  · rcases le_or_lt A.length (m+5) with hp2 | hp3
    · have e1 : ((A ++ x :: B).take (m+6)).sum = ((A ++ B).take (m+5)).sum + x := by
        have h := sum_take_mid A B x (m+6) (by omega)
        rwa [(by omega : m+6-1 = m+5)] at h
      have e2 : ((A ++ x :: B).take (m+1)).sum = ((A ++ B).take (m+1)).sum :=
        sum_take_out A B x (m+1) (by omega)
      have hmlt : m < (A ++ B).length := by omega
      have e3 := List.sum_take_succ (A ++ B) m hmlt
      have hge : lo ≤ (A ++ B)[m] := by exact hlo _ (List.get_mem (A ++ B) m hmlt)
      rw [e1, e2, e3]
      linarith
    · have e1 : ((A ++ x :: B).take (m+6)).sum = ((A ++ B).take (m+6)).sum :=
        sum_take_out A B x (m+6) (by omega)
      have e2 : ((A ++ x :: B).take (m+1)).sum = ((A ++ B).take (m+1)).sum :=
        sum_take_out A B x (m+1) (by omega)
      have h5lt : m+5 < (A ++ B).length := by omega
      have hmlt : m < (A ++ B).length := by omega
      have e3 : ((A ++ B).take (m+6)).sum =
          ((A ++ B).take (m+5)).sum + (A ++ B)[m+5] := by
        have h := List.sum_take_succ (A ++ B) (m+5) h5lt
        rwa [(by omega : m+5+1 = m+6)] at h
      have e4 := List.sum_take_succ (A ++ B) m hmlt
      have hplt : A.length < (A ++ x :: B).length := by omega
      have h5lt' : m+5 < (A ++ x :: B).length := by omega
      have g1 : (A ++ x :: B)[A.length] = x := by
        have t1 := List.sum_take_succ (A ++ x :: B) A.length hplt
        have t2 : ((A ++ x :: B).take (A.length + 1)).sum =
            ((A ++ B).take A.length).sum + x := by
          have h := sum_take_mid A B x (A.length + 1) (by omega)
          rwa [(by omega : A.length + 1 - 1 = A.length)] at h
        have t3 : ((A ++ x :: B).take A.length).sum = ((A ++ B).take A.length).sum :=
          sum_take_out A B x A.length le_rfl
        linarith
      have g2 : (A ++ x :: B)[m+5] = (A ++ B)[m+5] := by
        have t1 := List.sum_take_succ (A ++ x :: B) (m+5) h5lt'
        have t2 := List.sum_take_succ (A ++ B) (m+5) h5lt
        have t3 : ((A ++ x :: B).take (m+5+1)).sum = ((A ++ B).take (m+5+1)).sum :=
          sum_take_out A B x (m+5+1) (by omega)
        have t4 : ((A ++ x :: B).take (m+5)).sum = ((A ++ B).take (m+5)).sum :=
          sum_take_out A B x (m+5) (by omega)
        linarith
      have hcmp : (A ++ x :: B)[m+5] ≤ (A ++ x :: B)[A.length] :=
        hsu.rel_get_of_le (Fin.mk_le_mk.mpr (by omega))
      have hge : lo ≤ (A ++ B)[m] := by exact hlo _ (List.get_mem (A ++ B) m hmlt)
      rw [g1, g2] at hcmp
      rw [e1, e2, e3, e4]
      linarith

/-- Inserting a sample into an even-length sorted history never increases the
trimmed 5-window's sum. -/
theorem windowSum_orderedInsert_even (l : List ℚ) (x : ℚ)
    (hs : List.Sorted (· ≤ ·) l) (hlen : 5 ≤ l.length) (heven : l.length % 2 = 0) :
    windowSum (List.orderedInsert (· ≤ ·) x l) ≤ windowSum l := by
  have hsu : List.Sorted (· ≤ ·) (List.orderedInsert (· ≤ ·) x l) :=
    List.Sorted.orderedInsert x l hs
  obtain ⟨A, B, hlAB, hu⟩ := orderedInsert_decomp l x
  rw [hu] at hsu
  subst hlAB
  rw [hu]
  obtain ⟨m, hm⟩ : ∃ m, (A ++ B).length = 2*m+6 := ⟨((A ++ B).length - 6)/2, by omega⟩
  have hABl : (A ++ B).length = A.length + B.length := List.length_append A B
  have hxl : (A ++ x :: B).length = A.length + B.length + 1 := by
    simp only [List.length_append, List.length_cons]
    omega
  rw [windowSum_eq_sub _ (by omega), windowSum_eq_sub _ (by omega), hxl,
    (by omega : A.length + B.length = 2*m+6), hm,
    (by omega : (2*m+6+1)/2+3 = m+6), (by omega : (2*m+6+1)/2-2 = m+1),
    (by omega : (2*m+6)/2+3 = m+6), (by omega : (2*m+6)/2-2 = m+1)]
  rcases le_or_lt A.length m with hp | hp1
  · have e1 : ((A ++ x :: B).take (m+6)).sum = ((A ++ B).take (m+5)).sum + x := by
      have h := sum_take_mid A B x (m+6) (by omega)
      rwa [(by omega : m+6-1 = m+5)] at h
    have e2 : ((A ++ x :: B).take (m+1)).sum = ((A ++ B).take m).sum + x := by
      have h := sum_take_mid A B x (m+1) (by omega)
      rwa [(by omega : m+1-1 = m)] at h
    have h5lt : m+5 < (A ++ B).length := by omega
    have hmlt : m < (A ++ B).length := by omega
    have e3 : ((A ++ B).take (m+6)).sum =
        ((A ++ B).take (m+5)).sum + (A ++ B)[m+5] := by
      have h := List.sum_take_succ (A ++ B) (m+5) h5lt
      rwa [(by omega : m+5+1 = m+6)] at h
    have e4 := List.sum_take_succ (A ++ B) m hmlt
    have hcmp : (A ++ B)[m] ≤ (A ++ B)[m+5] :=
      hs.rel_get_of_le (Fin.mk_le_mk.mpr (by omega))
    rw [e1, e2, e3, e4]
    linarith
  · rcases le_or_lt A.length (m+5) with hp2 | hp3
    · have e1 : ((A ++ x :: B).take (m+6)).sum = ((A ++ B).take (m+5)).sum + x := by
        have h := sum_take_mid A B x (m+6) (by omega)
        rwa [(by omega : m+6-1 = m+5)] at h
      have e2 : ((A ++ x :: B).take (m+1)).sum = ((A ++ B).take (m+1)).sum :=
        sum_take_out A B x (m+1) (by omega)
      have h5lt : m+5 < (A ++ B).length := by omega
      have e3 : ((A ++ B).take (m+6)).sum =
          ((A ++ B).take (m+5)).sum + (A ++ B)[m+5] := by
        have h := List.sum_take_succ (A ++ B) (m+5) h5lt
        rwa [(by omega : m+5+1 = m+6)] at h
      have hplt : A.length < (A ++ x :: B).length := by omega
      have h6lt : m+6 < (A ++ x :: B).length := by omega
      have g1 : (A ++ x :: B)[A.length] = x := by
        have t1 := List.sum_take_succ (A ++ x :: B) A.length hplt
        have t2 : ((A ++ x :: B).take (A.length + 1)).sum =
            ((A ++ B).take A.length).sum + x := by
          have h := sum_take_mid A B x (A.length + 1) (by omega)
          rwa [(by omega : A.length + 1 - 1 = A.length)] at h
        have t3 : ((A ++ x :: B).take A.length).sum = ((A ++ B).take A.length).sum :=
          sum_take_out A B x A.length le_rfl
        linarith
      have g2 : (A ++ x :: B)[m+6] = (A ++ B)[m+5] := by
        have t1 := List.sum_take_succ (A ++ x :: B) (m+6) h6lt
        have t2 : ((A ++ x :: B).take (m+6)).sum = ((A ++ B).take (m+5)).sum + x := by
          have h := sum_take_mid A B x (m+6) (by omega)
          rwa [(by omega : m+6-1 = m+5)] at h
        have t3 : ((A ++ x :: B).take (m+6+1)).sum = ((A ++ B).take (m+6)).sum + x := by
          have h := sum_take_mid A B x (m+6+1) (by omega)
          rwa [(by omega : m+6+1-1 = m+6)] at h
        have t4 : ((A ++ B).take (m+6)).sum =
            ((A ++ B).take (m+5)).sum + (A ++ B)[m+5] := by
          have h := List.sum_take_succ (A ++ B) (m+5) h5lt
          rwa [(by omega : m+5+1 = m+6)] at h
        linarith
      have hcmp : (A ++ x :: B)[A.length] ≤ (A ++ x :: B)[m+6] :=
        hsu.rel_get_of_le (Fin.mk_le_mk.mpr (by omega))
      rw [g1, g2] at hcmp
      rw [e1, e2, e3]
      linarith
    · have e1 : ((A ++ x :: B).take (m+6)).sum = ((A ++ B).take (m+6)).sum :=
        sum_take_out A B x (m+6) (by omega)
      have e2 : ((A ++ x :: B).take (m+1)).sum = ((A ++ B).take (m+1)).sum :=
        sum_take_out A B x (m+1) (by omega)
      rw [e1, e2]

/-- Evicting a present sample from an even-length sorted history never
increases the trimmed 5-window's sum. -/
theorem windowSum_erase_even (l : List ℚ) (w : ℚ)
    (hs : List.Sorted (· ≤ ·) l) (hlen : 6 ≤ l.length) (heven : l.length % 2 = 0)
    (hw : w ∈ l) :
    windowSum (l.erase w) ≤ windowSum l := by
  obtain ⟨A, B, hnA, hl, he⟩ := List.exists_erase_eq hw
  subst hl
  rw [he]
  obtain ⟨m, hm⟩ : ∃ m, (A ++ w :: B).length = 2*m+6 :=
    ⟨((A ++ w :: B).length - 6)/2, by omega⟩
  have hwl : (A ++ w :: B).length = A.length + B.length + 1 := by
    simp only [List.length_append, List.length_cons]
    omega
  have hABl : (A ++ B).length = A.length + B.length := List.length_append A B
  rw [windowSum_eq_sub _ (by omega), windowSum_eq_sub _ (by omega), hABl,
    (by omega : A.length + B.length = 2*m+5), hm,
    (by omega : (2*m+5)/2+3 = m+5), (by omega : (2*m+5)/2-2 = m),
    (by omega : (2*m+6)/2+3 = m+6), (by omega : (2*m+6)/2-2 = m+1)]
  rcases le_or_lt A.length m with hp | hp1
  · have e1 : ((A ++ w :: B).take (m+6)).sum = ((A ++ B).take (m+5)).sum + w := by
      have h := sum_take_mid A B w (m+6) (by omega)
      rwa [(by omega : m+6-1 = m+5)] at h
    have e2 : ((A ++ w :: B).take (m+1)).sum = ((A ++ B).take m).sum + w := by
      have h := sum_take_mid A B w (m+1) (by omega)
      rwa [(by omega : m+1-1 = m)] at h
    rw [e1, e2]
    linarith
  · rcases le_or_lt A.length (m+5) with hp2 | hp3
    · have e1 : ((A ++ w :: B).take (m+6)).sum = ((A ++ B).take (m+5)).sum + w := by
        have h := sum_take_mid A B w (m+6) (by omega)
        rwa [(by omega : m+6-1 = m+5)] at h
      have e2 : ((A ++ w :: B).take (m+1)).sum = ((A ++ B).take (m+1)).sum :=
        (sum_take_out A B w (m+1) (by omega)).symm.symm
      have hmlt : m < (A ++ B).length := by omega
      have e4 := List.sum_take_succ (A ++ B) m hmlt
      have hplt : A.length < (A ++ w :: B).length := by omega
      have hmlt' : m < (A ++ w :: B).length := by omega
      have g1 : (A ++ w :: B)[A.length] = w := by
        have t1 := List.sum_take_succ (A ++ w :: B) A.length hplt
        have t2 : ((A ++ w :: B).take (A.length + 1)).sum =
            ((A ++ B).take A.length).sum + w := by
          have h := sum_take_mid A B w (A.length + 1) (by omega)
          rwa [(by omega : A.length + 1 - 1 = A.length)] at h
        have t3 : ((A ++ w :: B).take A.length).sum = ((A ++ B).take A.length).sum :=
          sum_take_out A B w A.length le_rfl
        linarith
      have g2 : (A ++ w :: B)[m] = (A ++ B)[m] := by
        have t1 := List.sum_take_succ (A ++ w :: B) m hmlt'
        have t2 := List.sum_take_succ (A ++ B) m hmlt
        have t3 : ((A ++ w :: B).take (m+1)).sum = ((A ++ B).take (m+1)).sum :=
          sum_take_out A B w (m+1) (by omega)
        have t4 : ((A ++ w :: B).take m).sum = ((A ++ B).take m).sum :=
          sum_take_out A B w m (by omega)
        linarith
      have hcmp : (A ++ w :: B)[m] ≤ (A ++ w :: B)[A.length] :=
        hs.rel_get_of_le (Fin.mk_le_mk.mpr (by omega))
      rw [g1, g2] at hcmp
      rw [e1, e2, e4]
      linarith
    · have e1 : ((A ++ w :: B).take (m+6)).sum = ((A ++ B).take (m+6)).sum :=
        sum_take_out A B w (m+6) (by omega)
      have e2 : ((A ++ w :: B).take (m+1)).sum = ((A ++ B).take (m+1)).sum :=
        sum_take_out A B w (m+1) (by omega)
      have h5lt : m+5 < (A ++ B).length := by omega
      have hmlt : m < (A ++ B).length := by omega
      have e3 : ((A ++ B).take (m+6)).sum =
          ((A ++ B).take (m+5)).sum + (A ++ B)[m+5] := by
        have h := List.sum_take_succ (A ++ B) (m+5) h5lt
        rwa [(by omega : m+5+1 = m+6)] at h
      have e4 := List.sum_take_succ (A ++ B) m hmlt
      have hsAB : List.Sorted (· ≤ ·) (A ++ B) :=
        List.Pairwise.sublist (by rw [← he]; exact List.erase_sublist w (A ++ w :: B)) hs
      have hcmp : (A ++ B)[m] ≤ (A ++ B)[m+5] :=
        hsAB.rel_get_of_le (Fin.mk_le_mk.mpr (by omega))
      rw [e1, e2, e3, e4]
      linarith

/-! ## Candidate-tempo bounds under history growth and eviction -/

theorem mathAbs_le_iff (a b : ℚ) : mathAbs a ≤ b ↔ -b ≤ a ∧ a ≤ b := by
  unfold mathAbs
  split_ifs with h
  · constructor
    · intro hb
      constructor <;> linarith
    · intro hb
      linarith [hb.1]
  · constructor
    · intro hb
      constructor <;> linarith
    · intro hb
      exact hb.2

theorem sortq_mem_of_mem {x : ℚ} {l : List ℚ} (h : x ∈ l) : x ∈ sortq l :=
  (sortq_perm l).mem_iff.mpr h

/-- For exactly five samples the candidate tempo is still the plain mean. -/
theorem calc_eq_mean5 (hist : List ℚ) (h : hist.length = 5) :
    calculateStableBPM hist = hist.sum / 5 := by
  rw [calc_eq_windowSum hist (by omega)]
  unfold windowSum trimWindow
  rw [sortq_length, h]
  norm_num
  rw [List.take_of_length_le (by rw [sortq_length]; omega), sortq_sum]

theorem capPush_eq_append (cap : ℕ) (l : List ℚ) (x : ℚ) (h : l.length < cap) :
    capPush cap l x = l ++ [x] := by
  unfold capPush
  dsimp only
  rw [if_neg (by simp only [List.length_append, List.length_cons, List.length_nil]; omega)]

theorem capPush_eq_tail_append (l : List ℚ) (x : ℚ) (h : l.length = bpmHistorySize) :
    capPush bpmHistorySize l x = l.tail ++ [x] := by
  unfold capPush
  dsimp only
  rw [if_pos (by simp only [List.length_append, List.length_cons, List.length_nil]; omega)]
  cases l with
  | nil => exact absurd h (by decide)
  | cons a t => rfl

/-- Admitting a sample into a history of at least five moves the candidate by
at most a fifth of the sample's excess over the 60 BPM floor. -/
theorem calc_append_le (hist : List ℚ) (b : ℚ) (h5 : 5 ≤ hist.length)
    (hlo : ∀ y ∈ hist, 60 ≤ y) (hb : 60 ≤ b) :
    calculateStableBPM (hist ++ [b]) ≤ calculateStableBPM hist + (b - 60) / 5 := by
  rw [calc_eq_windowSum hist h5,
    calc_eq_windowSum (hist ++ [b]) (by simp only [List.length_append, List.length_cons]; omega),
    sortq_append_single]
  have hsl : (sortq hist).length = hist.length := sortq_length hist
  have hmem : ∀ y ∈ sortq hist, 60 ≤ y := fun y hy => hlo y (sortq_mem hy)
  rcases Nat.even_or_odd hist.length with he | ho
  · have he2 := Nat.even_iff.mp he
    have hws := windowSum_orderedInsert_even (sortq hist) b (sortq_sorted hist)
      (by omega) (by omega)
    have : (0:ℚ) ≤ (b - 60) / 5 := by linarith
    linarith
  · have ho2 := Nat.odd_iff.mp ho
    have hws := windowSum_orderedInsert_odd (sortq hist) b 60 (sortq_sorted hist)
      (by omega) (by omega) hmem hb
    linarith

/-- At capacity, evicting the oldest sample and admitting a new one moves the
candidate by at most a fifth of the sample's excess over the 60 BPM floor. -/
theorem calc_evict_append_le (hist : List ℚ) (b : ℚ) (h20 : hist.length = 20)
    (hlo : ∀ y ∈ hist, 60 ≤ y) (hb : 60 ≤ b) :
    calculateStableBPM (hist.tail ++ [b]) ≤ calculateStableBPM hist + (b - 60) / 5 := by
  obtain ⟨a, t, rfl⟩ : ∃ a t, hist = a :: t := by
    cases hist with
    | nil => simp at h20
    | cons a t => exact ⟨a, t, rfl⟩
  have ht : t.length = 19 := by simpa using h20
  simp only [List.tail_cons]
  rw [calc_eq_windowSum (a :: t) (by omega),
    calc_eq_windowSum (t ++ [b]) (by simp only [List.length_append, List.length_cons]; omega),
    sortq_append_single]
  have hstl : (sortq t).length = t.length := sortq_length t
  have hmem : ∀ y ∈ sortq t, 60 ≤ y :=
    fun y hy => hlo y (List.mem_cons_of_mem a (sortq_mem hy))
  have hws1 := windowSum_orderedInsert_odd (sortq t) b 60 (sortq_sorted t)
    (by omega) (by omega) hmem hb
  have herase : sortq t = (sortq (a :: t)).erase a := sortq_cons_erase a t
  have hws2 : windowSum (sortq t) ≤ windowSum (sortq (a :: t)) := by
    rw [herase]
    exact windowSum_erase_even (sortq (a :: t)) a (sortq_sorted (a :: t))
      (by rw [sortq_length]; omega) (by rw [sortq_length]; omega)
      (sortq_mem_of_mem (List.mem_cons_self a t))
  linarith

/-- One admission/rejection step of the BPM block preserves the tempo
invariant, moves an established stabilized tempo by at most a fifth of its
prior value, and follows the blend law. -/
theorem bpmStep_inv (b stable : ℚ) (hist : List ℚ) (hinv : bpmInv hist stable) :
    bpmInv (bpmStep b hist stable).1 (bpmStep b hist stable).2 ∧
    (0 < stable → mathAbs ((bpmStep b hist stable).2 - stable) ≤ stable * (1/5)) ∧
    ((bpmStep b hist stable).2 = stable ∨
      (bpmStep b hist stable).2 =
        stable * (4/5) + calculateStableBPM (bpmStep b hist stable).1 * (1/5) ∨
      (stable = 0 ∧
        (bpmStep b hist stable).2 = calculateStableBPM (bpmStep b hist stable).1)) := by
  obtain ⟨helem, hlen20, hs0, hzero, hpos⟩ := hinv
  have habs0 : mathAbs 0 = 0 := by
    unfold mathAbs
    norm_num
  by_cases hr : 60 ≤ b ∧ b ≤ 200
  case neg =>
    have heq : bpmStep b hist stable = (hist, stable) := by
      unfold bpmStep
      rw [if_neg hr]
    rw [heq]
    dsimp only
    refine ⟨⟨helem, hlen20, hs0, hzero, hpos⟩, ?_, Or.inl rfl⟩
    intro hsp
    rw [sub_self, habs0]
    linarith
  case pos =>
    by_cases hrej :
        (5 ≤ hist.length ∧ 0 < stable) ∧ stable * (2/5) < mathAbs (b - stable)
    case pos =>
      have h5 := hrej.1.1
      have hspos := hrej.1.2
      obtain ⟨hs60, hs200, h3, _, _, hc5⟩ := hpos hspos
      have hc := hc5 h5
      have hcr := calc_range hist (by omega) helem
      have hsne : ¬ stable = 0 := by linarith
      have heq : bpmStep b hist stable =
          (hist, stable * (4/5) + calculateStableBPM hist * (1/5)) := by
        unfold bpmStep
        dsimp only
        rw [if_pos hr, if_pos hrej, if_pos (by omega), if_neg hsne]
      rw [heq]
      dsimp only
      refine ⟨⟨helem, hlen20, by linarith [hcr.1], ?_, ?_⟩, ?_, Or.inr (Or.inl rfl)⟩
      · intro h
        exfalso
        have := hcr.1
        linarith
      · intro _
        refine ⟨by linarith [hcr.1], by linarith [hcr.2], h3, ?_, ?_, ?_⟩
        · intro h3'
          exact absurd h3' (by omega)
        · intro h4'
          exact absurd h4' (by omega)
        · intro _
          linarith
      · intro _
        refine (mathAbs_le_iff _ _).mpr ⟨by linarith [hcr.1], by linarith⟩
    case neg =>
      have hbs : bpmHistorySize = 20 := rfl
      have helem2 : ∀ y ∈ hist ++ [b], 60 ≤ y ∧ y ≤ 200 := by
        intro y hy
        rcases List.mem_append.mp hy with h | h
        · exact helem y h
        · cases List.mem_singleton.mp h
          exact hr
      have hlan : (hist ++ [b]).length = hist.length + 1 := by
        simp only [List.length_append, List.length_cons, List.length_nil]
      have hsum4 : (hist ++ [b]).sum = hist.sum + b := by
        simp
      rcases (by omega : hist.length ≤ 1 ∨ hist.length = 2 ∨ hist.length = 3 ∨
          hist.length = 4 ∨ (5 ≤ hist.length ∧ hist.length ≤ 19) ∨ hist.length = 20)
        with hl1 | hl2 | hl3 | hl4 | h519 | hl20
      · -- at most one sample: grow, no recomputation
        have hcap : capPush bpmHistorySize hist b = hist ++ [b] :=
          capPush_eq_append _ _ _ (by omega)
        have hs' : stable = 0 := by
          rcases eq_or_lt_of_le hs0 with h | h
          · exact h.symm
          · exact absurd (hpos h).2.2.1 (by omega)
        have heq : bpmStep b hist stable = (hist ++ [b], stable) := by
          unfold bpmStep
          dsimp only
          rw [if_pos hr, if_neg hrej, hcap, if_neg (by omega)]
        rw [heq]
        dsimp only
        refine ⟨⟨helem2, by omega, hs0, fun _ => by omega,
          fun hp => absurd hs' (ne_of_gt hp)⟩,
          fun hp => absurd hs' (ne_of_gt hp), Or.inl rfl⟩
      · -- two samples: third admission establishes the stabilized tempo
        have hcap : capPush bpmHistorySize hist b = hist ++ [b] :=
          capPush_eq_append _ _ _ (by omega)
        have hs' : stable = 0 := by
          rcases eq_or_lt_of_le hs0 with h | h
          · exact h.symm
          · exact absurd (hpos h).2.2.1 (by omega)
        have heq : bpmStep b hist stable =
            (hist ++ [b], calculateStableBPM (hist ++ [b])) := by
          unfold bpmStep
          dsimp only
          rw [if_pos hr, if_neg hrej, hcap, if_pos (by omega), if_pos hs']
        rw [heq]
        dsimp only
        have hcr := calc_range (hist ++ [b]) (by omega) helem2
        refine ⟨⟨helem2, by omega, by linarith [hcr.1], ?_, ?_⟩,
          fun hp => absurd hs' (ne_of_gt hp), Or.inr (Or.inr ⟨hs', rfl⟩)⟩
        · intro h
          exfalso
          have := hcr.1
          linarith
        · intro _
          refine ⟨hcr.1, hcr.2, by omega, fun _ => rfl, ?_, ?_⟩
          · intro h4'
            exact absurd h4' (by omega)
          · intro h5'
            exact absurd h5' (by omega)
      · -- three samples: mean of four, tight 19/15 bound
        have hcap : capPush bpmHistorySize hist b = hist ++ [b] :=
          capPush_eq_append _ _ _ (by omega)
        have hspos : 0 < stable := by
          rcases eq_or_lt_of_le hs0 with h | h
          · exact absurd (hzero h.symm) (by omega)
          · exact h
        obtain ⟨hs60, hs200, _, hc3, _, _⟩ := hpos hspos
        have hc3' := hc3 hl3
        have hm := calc_eq_mean hist (by omega) (by omega)
        rw [hl3, hc3'] at hm
        push_cast at hm
        have hsum3 : hist.sum = 3 * stable := by linarith
        have hm4 := calc_eq_mean (hist ++ [b]) (by omega) (by omega)
        rw [hsum4, hlan, hl3] at hm4
        push_cast at hm4
        have hcr := calc_range (hist ++ [b]) (by omega) helem2
        have hsne : ¬ stable = 0 := by linarith
        have heq : bpmStep b hist stable =
            (hist ++ [b],
              stable * (4/5) + calculateStableBPM (hist ++ [b]) * (1/5)) := by
          unfold bpmStep
          dsimp only
          rw [if_pos hr, if_neg hrej, hcap, if_pos (by omega), if_neg hsne]
        rw [heq]
        dsimp only
        refine ⟨⟨helem2, by omega, by linarith [hcr.1], ?_, ?_⟩, ?_,
          Or.inr (Or.inl rfl)⟩
        · intro h
          exfalso
          have := hcr.1
          linarith
        · intro _
          refine ⟨by linarith [hcr.1], by linarith [hcr.2], by omega, ?_, ?_, ?_⟩
          · intro h3'
            exact absurd h3' (by omega)
          · intro _
            have hb200 := hr.2
            linarith
          · intro h5'
            exact absurd h5' (by omega)
        · intro _
          refine (mathAbs_le_iff _ _).mpr ⟨by linarith [hcr.1], ?_⟩
          have hb200 := hr.2
          linarith
      · -- four samples: mean of five against the 19/15 bound
        have hcap : capPush bpmHistorySize hist b = hist ++ [b] :=
          capPush_eq_append _ _ _ (by omega)
        have hspos : 0 < stable := by
          rcases eq_or_lt_of_le hs0 with h | h
          · exact absurd (hzero h.symm) (by omega)
          · exact h
        obtain ⟨hs60, hs200, _, _, hc4, _⟩ := hpos hspos
        have hc4' := hc4 hl4
        have hm := calc_eq_mean hist (by omega) (by omega)
        rw [hl4] at hm
        push_cast at hm
        have hm5 := calc_eq_mean5 (hist ++ [b]) (by omega)
        rw [hsum4] at hm5
        have hcr := calc_range (hist ++ [b]) (by omega) helem2
        have hsne : ¬ stable = 0 := by linarith
        have heq : bpmStep b hist stable =
            (hist ++ [b],
              stable * (4/5) + calculateStableBPM (hist ++ [b]) * (1/5)) := by
          unfold bpmStep
          dsimp only
          rw [if_pos hr, if_neg hrej, hcap, if_pos (by omega), if_neg hsne]
        rw [heq]
        dsimp only
        refine ⟨⟨helem2, by omega, by linarith [hcr.1], ?_, ?_⟩, ?_,
          Or.inr (Or.inl rfl)⟩
        · intro h
          exfalso
          have := hcr.1
          linarith
        · intro _
          refine ⟨by linarith [hcr.1], by linarith [hcr.2], by omega, ?_, ?_, ?_⟩
          · intro h3'
            exact absurd h3' (by omega)
          · intro h4''
            exact absurd h4'' (by omega)
          · intro _
            have hb200 := hr.2
            linarith
        · intro _
          refine (mathAbs_le_iff _ _).mpr ⟨by linarith [hcr.1], ?_⟩
          have hb200 := hr.2
          linarith
      · -- five to nineteen samples: outlier filter in force, window jump bound
        have hcap : capPush bpmHistorySize hist b = hist ++ [b] :=
          capPush_eq_append _ _ _ (by omega)
        have hspos : 0 < stable := by
          rcases eq_or_lt_of_le hs0 with h | h
          · exact absurd (hzero h.symm) (by omega)
          · exact h
        obtain ⟨hs60, hs200, _, _, _, hc5⟩ := hpos hspos
        have hc := hc5 h519.1
        have hfil : ¬ stable * (2/5) < mathAbs (b - stable) :=
          fun hcon => hrej ⟨⟨h519.1, hspos⟩, hcon⟩
        have hble : b ≤ stable + stable * (2/5) := by
          have := ((mathAbs_le_iff _ _).mp (not_lt.mp hfil)).2
          linarith
        have hca := calc_append_le hist b h519.1 (fun y hy => (helem y hy).1) hr.1
        have hcr := calc_range (hist ++ [b]) (by omega) helem2
        have hsne : ¬ stable = 0 := by linarith
        have heq : bpmStep b hist stable =
            (hist ++ [b],
              stable * (4/5) + calculateStableBPM (hist ++ [b]) * (1/5)) := by
          unfold bpmStep
          dsimp only
          rw [if_pos hr, if_neg hrej, hcap, if_pos (by omega), if_neg hsne]
        rw [heq]
        dsimp only
        refine ⟨⟨helem2, by omega, by linarith [hcr.1], ?_, ?_⟩, ?_,
          Or.inr (Or.inl rfl)⟩
        · intro h
          exfalso
          have := hcr.1
          linarith
        · intro _
          refine ⟨by linarith [hcr.1], by linarith [hcr.2], by omega, ?_, ?_, ?_⟩
          · intro h3'
            exact absurd h3' (by omega)
          · intro h4'
            exact absurd h4' (by omega)
          · intro _
            linarith
        · intro _
          refine (mathAbs_le_iff _ _).mpr ⟨by linarith [hcr.1], ?_⟩
          linarith
      · -- at capacity: oldest sample evicted, then the window jump bound
        have hcap : capPush bpmHistorySize hist b = hist.tail ++ [b] :=
          capPush_eq_tail_append hist b (by omega)
        have helem3 : ∀ y ∈ hist.tail ++ [b], 60 ≤ y ∧ y ≤ 200 := by
          intro y hy
          rcases List.mem_append.mp hy with h | h
          · exact helem y (List.mem_of_mem_tail h)
          · cases List.mem_singleton.mp h
            exact hr
        have hlant : (hist.tail ++ [b]).length = 20 := by
          simp only [List.length_append, List.length_cons, List.length_nil,
            List.length_tail]
          omega
        have hspos : 0 < stable := by
          rcases eq_or_lt_of_le hs0 with h | h
          · exact absurd (hzero h.symm) (by omega)
          · exact h
        obtain ⟨hs60, hs200, _, _, _, hc5⟩ := hpos hspos
        have hc := hc5 (by omega)
        have hfil : ¬ stable * (2/5) < mathAbs (b - stable) :=
          fun hcon => hrej ⟨⟨by omega, hspos⟩, hcon⟩
        have hble : b ≤ stable + stable * (2/5) := by
          have := ((mathAbs_le_iff _ _).mp (not_lt.mp hfil)).2
          linarith
        have hca := calc_evict_append_le hist b hl20 (fun y hy => (helem y hy).1) hr.1
        have hcr := calc_range (hist.tail ++ [b]) (by omega) helem3
        have hsne : ¬ stable = 0 := by linarith
        have heq : bpmStep b hist stable =
            (hist.tail ++ [b],
              stable * (4/5) + calculateStableBPM (hist.tail ++ [b]) * (1/5)) := by
          unfold bpmStep
          dsimp only
          rw [if_pos hr, if_neg hrej, hcap, if_pos (by omega), if_neg hsne]
        rw [heq]
        dsimp only
        refine ⟨⟨helem3, by omega, by linarith [hcr.1], ?_, ?_⟩, ?_,
          Or.inr (Or.inl rfl)⟩
        · intro h
          exfalso
          have := hcr.1
          linarith
        · intro _
          refine ⟨by linarith [hcr.1], by linarith [hcr.2], by omega, ?_, ?_, ?_⟩
          · intro h3'
            exact absurd h3' (by omega)
          · intro h4'
            exact absurd h4' (by omega)
          · intro _
            linarith
        · intro _
          refine (mathAbs_le_iff _ _).mpr ⟨by linarith [hcr.1], ?_⟩
          linarith

/-- With a previous accepted beat recorded, the BPM block of `processAudio`
is exactly the admission/rejection step on the BPM fields. -/
theorem bpmUpdate_eq_bpmStep (t : ℚ) (s : DetectorState) (h : 0 < s.lastBeatTime) :
    (bpmUpdate t s).1 =
      (bpmStep (60000 / (t - s.lastBeatTime)) s.bpmHistory s.currentStableBPM).1 ∧
    (bpmUpdate t s).2.1 =
      (bpmStep (60000 / (t - s.lastBeatTime)) s.bpmHistory s.currentStableBPM).2 := by
  unfold bpmUpdate bpmStep
  rw [if_pos h]
  dsimp only
  split_ifs <;> exact ⟨rfl, rfl⟩

/-- Without a previous accepted beat, the BPM block leaves the BPM fields
unchanged. -/
theorem bpmUpdate_noop (t : ℚ) (s : DetectorState) (h : ¬ 0 < s.lastBeatTime) :
    (bpmUpdate t s).1 = s.bpmHistory ∧ (bpmUpdate t s).2.1 = s.currentStableBPM := by
  unfold bpmUpdate
  rw [if_neg h]
  exact ⟨rfl, rfl⟩

/-- Across one detector tick the BPM History and stabilized tempo either are
untouched or undergo exactly one admission/rejection step for some
instantaneous BPM. -/
theorem stepDet_bpm_cases (s : DetectorState) (e now : ℚ) :
    ((stepDet s (e, now)).1.bpmHistory = s.bpmHistory ∧
      (stepDet s (e, now)).1.currentStableBPM = s.currentStableBPM) ∨
    ∃ b, (stepDet s (e, now)).1.bpmHistory =
        (bpmStep b s.bpmHistory s.currentStableBPM).1 ∧
      (stepDet s (e, now)).1.currentStableBPM =
        (bpmStep b s.bpmHistory s.currentStableBPM).2 := by
  unfold stepDet
  dsimp only
  unfold mainPhase
  dsimp only
  split_ifs with h1 h2 h3
  · exact Or.inl ⟨by simp, by simp⟩
  · set s2 : DetectorState := (detectBeat e now
      { (predictivePhase e now s).1 with
          energyHistory :=
            capPush historySize (predictivePhase e now s).1.energyHistory e }).2 with hs2
    have hbh : s2.bpmHistory = s.bpmHistory := by
      rw [hs2]
      simp
    have hcs : s2.currentStableBPM = s.currentStableBPM := by
      rw [hs2]
      simp
    by_cases hlbt : 0 < s2.lastBeatTime
    · have hu := bpmUpdate_eq_bpmStep now s2 hlbt
      refine Or.inr ⟨60000 / (now - s2.lastBeatTime), ?_, ?_⟩
      · rw [ubp_bpmHistory]
        dsimp only
        rw [hu.1, hbh, hcs]
      · rw [ubp_currentStableBPM]
        dsimp only
        rw [hu.2, hbh, hcs]
    · have hu := bpmUpdate_noop now s2 hlbt
      refine Or.inl ⟨?_, ?_⟩
      · rw [ubp_bpmHistory]
        dsimp only
        rw [hu.1, hbh]
      · rw [ubp_currentStableBPM]
        dsimp only
        rw [hu.2, hcs]
  · exact Or.inl ⟨by simp, by simp⟩
  · exact Or.inl ⟨by simp, by simp⟩

/-- One detector tick preserves the BPM invariant, and the stabilized tempo
either stays put or takes exactly one bounded blend step. -/
theorem stepDet_stable_props (s : DetectorState) (inp : ℚ × ℚ)
    (hinv : bpmInv s.bpmHistory s.currentStableBPM) :
    bpmInv (stepDet s inp).1.bpmHistory (stepDet s inp).1.currentStableBPM ∧
    (0 < s.currentStableBPM →
      mathAbs ((stepDet s inp).1.currentStableBPM - s.currentStableBPM) ≤
        s.currentStableBPM * (1/5)) ∧
    ((stepDet s inp).1.currentStableBPM = s.currentStableBPM ∨
      (stepDet s inp).1.currentStableBPM =
        s.currentStableBPM * (4/5) +
          calculateStableBPM (stepDet s inp).1.bpmHistory * (1/5) ∨
      (s.currentStableBPM = 0 ∧
        (stepDet s inp).1.currentStableBPM =
          calculateStableBPM (stepDet s inp).1.bpmHistory)) := by
  obtain ⟨e, now⟩ := inp
  rcases stepDet_bpm_cases s e now with ⟨h1, h2⟩ | ⟨b, h1, h2⟩
  · rw [h1, h2]
    refine ⟨hinv, fun _ => ?_, Or.inl rfl⟩
    rw [sub_self]
    have habs0 : mathAbs 0 = 0 := by
      unfold mathAbs
      norm_num
    rw [habs0]
    have := hinv.2.2.1
    linarith
  · rw [h1, h2]
    exact bpmStep_inv b s.currentStableBPM s.bpmHistory hinv

/-- The fresh detector satisfies the BPM invariant. -/
theorem bpmInv_init : bpmInv initDetector.bpmHistory initDetector.currentStableBPM := by
  unfold bpmInv initDetector
  refine ⟨by simp, by simp, le_refl 0, fun _ => by simp, fun h => absurd h (by norm_num)⟩

/-- Every reachable detector state satisfies the BPM invariant. -/
theorem runDet_bpmInv (inputs : List (ℚ × ℚ)) (s : DetectorState)
    (hinv : bpmInv s.bpmHistory s.currentStableBPM) :
    bpmInv (runDet s inputs).1.bpmHistory (runDet s inputs).1.currentStableBPM := by
  induction inputs generalizing s with
  | nil => exact hinv
  | cons i rest ih =>
    unfold runDet
    dsimp only
    exact ih _ (stepDet_stable_props s i hinv).1

/-- C5.  Once the stabilized tempo is established (nonzero) in a reachable
detector state, it lies within [60, 200]; across any next tick it stays
within [60, 200], no single update changes it by more than 20 % of its prior
value, and each update either leaves it untouched or blends it with the
candidate tempo from BPM History as stable = stable × 0.8 + candidate × 0.2. -/
theorem stable_bpm_smoothing (inputs : List (ℚ × ℚ)) (p : ℚ × ℚ)
    (hpos : 0 < (runDet initDetector inputs).1.currentStableBPM) :
    (60 ≤ (runDet initDetector inputs).1.currentStableBPM ∧
      (runDet initDetector inputs).1.currentStableBPM ≤ 200) ∧
    (60 ≤ (stepDet (runDet initDetector inputs).1 p).1.currentStableBPM ∧
      (stepDet (runDet initDetector inputs).1 p).1.currentStableBPM ≤ 200) ∧
    mathAbs ((stepDet (runDet initDetector inputs).1 p).1.currentStableBPM -
        (runDet initDetector inputs).1.currentStableBPM) ≤
      (runDet initDetector inputs).1.currentStableBPM * (1/5) ∧
    ((stepDet (runDet initDetector inputs).1 p).1.currentStableBPM =
        (runDet initDetector inputs).1.currentStableBPM ∨
      (stepDet (runDet initDetector inputs).1 p).1.currentStableBPM =
        (runDet initDetector inputs).1.currentStableBPM * (4/5) +
          calculateStableBPM
            (stepDet (runDet initDetector inputs).1 p).1.bpmHistory * (1/5)) := by
  have hinv := runDet_bpmInv inputs initDetector bpmInv_init
  obtain ⟨hinv2, hstep, hblend⟩ :=
    stepDet_stable_props (runDet initDetector inputs).1 p hinv
  have hrange := hinv.2.2.2.2 hpos
  have hd := hstep hpos
  have habs := (mathAbs_le_iff _ _).mp hd
  have hpos2 : 0 < (stepDet (runDet initDetector inputs).1 p).1.currentStableBPM := by
    have h60 := hrange.1
    have hl := habs.1
    linarith
  have hrange2 := hinv2.2.2.2.2 hpos2
  refine ⟨⟨hrange.1, hrange.2.1⟩, ⟨hrange2.1, hrange2.2.1⟩, hd, ?_⟩
  rcases hblend with h | h | h
  · exact Or.inl h
  · exact Or.inr h
  · exact absurd h.1 (ne_of_gt hpos)

/-- Witness: after `stableTrace` the stabilized tempo is 980/9 ≈ 108.9 —
established and nonzero — so the smoothing theorem applies to a further
tick. -/
theorem stable_bpm_smoothing_witness :
    0 < (runDet initDetector stableTrace).1.currentStableBPM ∧
    (60 ≤ (runDet initDetector stableTrace).1.currentStableBPM ∧
      (runDet initDetector stableTrace).1.currentStableBPM ≤ 200) ∧
    (60 ≤ (stepDet (runDet initDetector stableTrace).1 (10, 12340)).1.currentStableBPM ∧
      (stepDet (runDet initDetector stableTrace).1 (10, 12340)).1.currentStableBPM ≤ 200) ∧
    mathAbs ((stepDet (runDet initDetector stableTrace).1 (10, 12340)).1.currentStableBPM -
        (runDet initDetector stableTrace).1.currentStableBPM) ≤
      (runDet initDetector stableTrace).1.currentStableBPM * (1/5) ∧
    ((stepDet (runDet initDetector stableTrace).1 (10, 12340)).1.currentStableBPM =
        (runDet initDetector stableTrace).1.currentStableBPM ∨
      (stepDet (runDet initDetector stableTrace).1 (10, 12340)).1.currentStableBPM =
        (runDet initDetector stableTrace).1.currentStableBPM * (4/5) +
          calculateStableBPM
            (stepDet (runDet initDetector stableTrace).1 (10, 12340)).1.bpmHistory * (1/5)) := by
  have hp : 0 < (runDet initDetector stableTrace).1.currentStableBPM := by
    rw [(by with_unfolding_all rfl :
      (runDet initDetector stableTrace).1.currentStableBPM = (980/9 : ℚ))]
    norm_num
  exact ⟨hp, stable_bpm_smoothing stableTrace (10, 12340) hp⟩

end BailaBeat
